import Mathlib

/-!
Verification development for the rustc-demangle core: a shallow embedding of
the legacy and v0 demanglers (src/legacy.rs and src/v0.rs) as executable Lean
functions, together with theorems about the embedded code.

Symbols are modelled as lists of characters.  Both demanglers reject any
input containing a non-ASCII byte before doing further work, and on ASCII
input the byte-level operations of the Rust code coincide with the
character-level operations used here.  Machine integers (u64 and usize,
both 64 bits wide in the modelled build) are modelled as natural numbers
with explicit bound checks wherever the Rust code performs checked
arithmetic.
-/

/-- Maximum recursion depth when parsing symbols (MAX_DEPTH in v0.rs). -/
def MAX_DEPTH : Nat := 500

/-- Overflow bound for u64 and for usize (64-bit target): 2 to the 64. -/
def U64LIMIT : Nat := 2 ^ 64

/-- Parse errors of the v0 demangler (ParseError in v0.rs). -/
inductive ParseError where
  | invalid
  | recursedTooDeep
deriving DecidableEq, Repr

/-- Snippet printed when an error is initially encountered
(ParseError::message in v0.rs). -/
def ParseError.message : ParseError → String
  | .invalid => "\x7binvalid syntax\x7d"
  | .recursedTooDeep => "\x7brecursion limit reached\x7d"

/-- Parser state of the v0 demangler (struct Parser in v0.rs): the symbol,
a byte cursor and the recursion depth. -/
structure Parser where
  sym : List Char
  next : Nat
  depth : Nat
deriving DecidableEq, Repr

/-- Decimal digit test for a byte (the 0 to 9 byte range). -/
def isDigit10 (c : Char) : Bool := 48 ≤ c.toNat && c.toNat ≤ 57

/-- Value of a decimal digit byte. -/
def digit10Val (c : Char) : Nat := c.toNat - 48

/-- Lower-case hex digit test (the 0 to 9 and a to f byte ranges),
as used by Parser::hex_nibbles. -/
def isHexNibble (c : Char) : Bool :=
  (48 ≤ c.toNat && c.toNat ≤ 57) || (97 ≤ c.toNat && c.toNat ≤ 102)

/-- Base-62 digit value (0 to 9, a to z, A to Z), as in Parser::digit_62. -/
def int62Digit (c : Char) : Option Nat :=
  if 48 ≤ c.toNat ∧ c.toNat ≤ 57 then some (c.toNat - 48)
  else if 97 ≤ c.toNat ∧ c.toNat ≤ 122 then some (10 + (c.toNat - 97))
  else if 65 ≤ c.toNat ∧ c.toNat ≤ 90 then some (10 + 26 + (c.toNat - 65))
  else none

/-- Parser::peek. -/
def Parser.peek (p : Parser) : Option Char := p.sym.get? p.next

/-- Parser::eat: consume one byte if it equals the argument, returning
whether it did. -/
def Parser.eat (p : Parser) (b : Char) : Bool × Parser :=
  if p.peek = some b then (true, { p with next := p.next + 1 }) else (false, p)

/-- Parser::next: consume one byte, failing with Invalid at end of input. -/
def Parser.nextByte (p : Parser) : Except ParseError (Char × Parser) :=
  match p.peek with
  | some b => .ok (b, { p with next := p.next + 1 })
  | none => .error .invalid

/-- Parser::push_depth: increment the depth, failing with RecursedTooDeep
when it exceeds MAX_DEPTH. -/
def Parser.pushDepth (p : Parser) : Except ParseError Parser :=
  let q : Parser := { p with depth := p.depth + 1 }
  if MAX_DEPTH < q.depth then .error .recursedTooDeep else .ok q

/-- Parser::pop_depth: decrement the depth. -/
def Parser.popDepth (p : Parser) : Parser := { p with depth := p.depth - 1 }

/-- Loop of Parser::hex_nibbles over the remaining input: lower-case hex
digits terminated by an underscore; anything else (or end of input) fails. -/
def hexNibblesAux : List Char → Option (List Char)
  | [] => none
  | c :: rest =>
    if isHexNibble c then (hexNibblesAux rest).map (c :: ·)
    else if c = '_' then some []
    else none

/-- Parser::hex_nibbles: consume hex digits up to a mandatory underscore and
return them (the underscore is consumed but not returned). -/
def Parser.hexNibbles (p : Parser) : Except ParseError (List Char × Parser) :=
  match hexNibblesAux (p.sym.drop p.next) with
  | some ds => .ok (ds, { p with next := p.next + ds.length + 1 })
  | none => .error .invalid

/-- Parser::digit_10: consume a single decimal digit. -/
def Parser.digit10 (p : Parser) : Except ParseError (Nat × Parser) :=
  match p.peek with
  | some d =>
    if isDigit10 d then .ok (digit10Val d, { p with next := p.next + 1 })
    else .error .invalid
  | none => .error .invalid

/-- Parser::digit_62: consume a single base-62 digit. -/
def Parser.digit62 (p : Parser) : Except ParseError (Nat × Parser) :=
  match p.peek with
  | some d =>
    match int62Digit d with
    | some v => .ok (v, { p with next := p.next + 1 })
    | none => .error .invalid
  | none => .error .invalid

/-- Accumulation loop of Parser::integer_62 over the remaining input:
base-62 digits with checked u64 arithmetic, terminated by an underscore.
Returns the accumulated value together with the number of characters
consumed (digits plus the terminating underscore). -/
def integer62Loop : List Char → Nat → Except ParseError (Nat × Nat)
  | [], _ => .error .invalid
  | c :: rest, x =>
    if c = '_' then .ok (x, 1)
    else
      match int62Digit c with
      | none => .error .invalid
      | some d =>
        if x * 62 < U64LIMIT ∧ x * 62 + d < U64LIMIT then
          match integer62Loop rest (x * 62 + d) with
          | .ok (v, k) => .ok (v, k + 1)
          | .error e => .error e
        else .error .invalid

/-- Parser::integer_62: an immediate underscore yields 0; otherwise base-62
digits are accumulated (checked multiply and add) until an underscore and
the result is the value plus one (checked add). -/
def Parser.integer62 (p : Parser) : Except ParseError (Nat × Parser) :=
  let e := p.eat '_'
  if e.1 then .ok (0, e.2)
  else
    match integer62Loop (p.sym.drop p.next) 0 with
    | .ok (x, k) =>
      if x + 1 < U64LIMIT then .ok (x + 1, { p with next := p.next + k })
      else .error .invalid
    | .error err => .error err

/-- Parser::opt_integer_62: if the next byte is the tag, consume it and
return integer_62 plus one (checked); otherwise 0. -/
def Parser.optInteger62 (p : Parser) (tag : Char) : Except ParseError (Nat × Parser) :=
  let e := p.eat tag
  if !e.1 then .ok (0, e.2)
  else
    match e.2.integer62 with
    | .ok (x, p2) => if x + 1 < U64LIMIT then .ok (x + 1, p2) else .error .invalid
    | .error err => .error err

/-- Parser::disambiguator. -/
def Parser.disambiguator (p : Parser) : Except ParseError (Nat × Parser) :=
  p.optInteger62 's'

/-- Parser::namespace: an upper-case letter is a special namespace, a
lower-case letter an unspecified one, anything else is invalid. -/
def Parser.namespaceTag (p : Parser) : Except ParseError (Option Char × Parser) :=
  match p.nextByte with
  | .ok (c, p2) =>
    if 65 ≤ c.toNat ∧ c.toNat ≤ 90 then .ok (some c, p2)
    else if 97 ≤ c.toNat ∧ c.toNat ≤ 122 then .ok (none, p2)
    else .error .invalid
  | .error e => .error e

/-- First half of Parser::backref, separated so that the printer can record
the push_depth call on the spawned parser: with the cursor just past the
backref byte, compute the offset of that byte (s_start), parse the target
offset, fail with Invalid unless it is strictly smaller than s_start, and
spawn a sub-parser at the target with the current depth.  Returns the
spawned parser together with the advanced original parser. -/
def Parser.backrefSpawn (p : Parser) : Except ParseError (Parser × Parser) :=
  let sStart := p.next - 1
  match p.integer62 with
  | .error e => .error e
  | .ok (i, p2) =>
    if sStart ≤ i then .error .invalid
    else .ok ({ sym := p2.sym, next := i, depth := p2.depth }, p2)

/-- Parser::backref in full: spawn the sub-parser and push_depth on it. -/
def Parser.backref (p : Parser) : Except ParseError (Parser × Parser) :=
  match p.backrefSpawn with
  | .ok (np, p2) =>
    match np.pushDepth with
    | .ok np2 => .ok (np2, p2)
    | .error e => .error e
  | .error e => .error e

/-- An identifier of the v0 mangling (struct Ident in v0.rs): an ASCII part
and a punycode part. -/
structure Ident where
  ascii : List Char
  punycode : List Char
deriving DecidableEq, Repr

/-- Length-accumulation loop of Parser::ident (while let Ok(d) = digit_10),
with checked usize arithmetic.  Returns the accumulated length and the
number of digit characters consumed. -/
def identLenLoop : List Char → Nat → Except ParseError (Nat × Nat)
  | [], len => .ok (len, 0)
  | c :: rest, len =>
    if isDigit10 c then
      let d := digit10Val c
      if len * 10 < U64LIMIT ∧ len * 10 + d < U64LIMIT then
        match identLenLoop rest (len * 10 + d) with
        | .ok (l, k) => .ok (l, k + 1)
        | .error e => .error e
      else .error .invalid
    else .ok (len, 0)

/-- Index of the last occurrence of a character in a list, if any
(bytes().rposition in Parser::ident). -/
def rposition (l : List Char) (c : Char) : Option Nat :=
  match l.reverse.findIdx? (· = c) with
  | some j => some (l.length - 1 - j)
  | none => none

/-- Parser::ident: an optional u prefix for punycode, a decimal length (the
accumulation loop runs only when the first digit is nonzero), an optional
underscore separator, then the identifier bytes themselves; a punycode
identifier is split at its last underscore and must have a non-empty
punycode part. -/
def Parser.ident (p : Parser) : Except ParseError (Ident × Parser) :=
  let e := p.eat 'u'
  let isPunycode := e.1
  match e.2.digit10 with
  | .error err => .error err
  | .ok (l0, p1) =>
    match (if l0 ≠ 0 then identLenLoop (p1.sym.drop p1.next) l0 else .ok (l0, 0)) with
    | .error err => .error err
    | .ok (len, k) =>
      let p2 : Parser := { p1 with next := p1.next + k }
      let e2 := p2.eat '_'
      let p3 := e2.2
      let start := p3.next
      if p3.next + len < U64LIMIT then
        let p4 : Parser := { p3 with next := p3.next + len }
        if p4.sym.length < p4.next then .error .invalid
        else
          let idnt := (p4.sym.drop start).take len
          if isPunycode then
            match rposition idnt '_' with
            | some i =>
              let asc := idnt.take i
              let puny := idnt.drop (i + 1)
              if puny = [] then .error .invalid else .ok (⟨asc, puny⟩, p4)
            | none =>
              if idnt = [] then .error .invalid else .ok (⟨[], idnt⟩, p4)
          else .ok (⟨idnt, []⟩, p4)
      else .error .invalid

/-- Type names of the basic single-byte type tags (basic_type in v0.rs). -/
def basicType (tag : Char) : Option String :=
  if tag = 'b' then some "bool"
  else if tag = 'c' then some "char"
  else if tag = 'e' then some "str"
  else if tag = 'u' then some "()"
  else if tag = 'a' then some "i8"
  else if tag = 's' then some "i16"
  else if tag = 'l' then some "i32"
  else if tag = 'x' then some "i64"
  else if tag = 'n' then some "i128"
  else if tag = 'i' then some "isize"
  else if tag = 'h' then some "u8"
  else if tag = 't' then some "u16"
  else if tag = 'm' then some "u32"
  else if tag = 'y' then some "u64"
  else if tag = 'o' then some "u128"
  else if tag = 'j' then some "usize"
  else if tag = 'f' then some "f32"
  else if tag = 'd' then some "f64"
  else if tag = 'z' then some "!"
  else if tag = 'p' then some "_"
  else if tag = 'v' then some "..."
  else none

/-- Size of the stack buffer of Ident::try_small_punycode_decode. -/
def SMALL_PUNYCODE_LEN : Nat := 128

/-- Outcomes of a failed small punycode decode: fail models the Err(())
results that abort the decode and trigger the fallback rendering (including
the buffer-full check out.get(out_len)); oob models an insertion callback
invoked with an index beyond the current output length, the only way the
shift-and-insert loop could touch the buffer out of bounds. -/
inductive DErr where
  | fail
  | oob
deriving DecidableEq, Repr

/-- Total insertion of a character at an index of a list; at indices up to
the length this is exactly what the shift-and-insert loop of
Ident::try_small_punycode_decode does to the meaningful prefix of the
buffer. -/
def insertAt : List Char → Nat → Char → List Char
  | l, 0, c => c :: l
  | [], _ + 1, c => [c]
  | x :: l, i + 1, c => x :: insertAt l i c

/-- The insertion callback of Ident::try_small_punycode_decode: abort the
decode (fail) when the buffer already holds SMALL_PUNYCODE_LEN characters;
report oob when the insertion index exceeds the current output length;
otherwise insert. -/
def smallInsert (out : List Char) (i : Nat) (c : Char) : Except DErr (List Char) :=
  if SMALL_PUNYCODE_LEN ≤ out.length then .error .fail
  else if out.length < i then .error .oob
  else .ok (insertAt out i c)

/-- Punycode digit value (a to z then 0 to 9), as in Ident::punycode_decode. -/
def punyDigit (c : Char) : Option Nat :=
  if 97 ≤ c.toNat ∧ c.toNat ≤ 122 then some (c.toNat - 97)
  else if 48 ≤ c.toNat ∧ c.toNat ≤ 57 then some (26 + (c.toNat - 48))
  else none

/-- Inner loop of Ident::punycode_decode: read one delta value from the
punycode bytes (base 36, t_min 1, t_max 26), with checked usize arithmetic.
Returns the delta and the unconsumed rest.  The fuel argument only has to
exceed the number of bytes, since every iteration consumes one byte. -/
def punyDeltaLoop : Nat → List Char → Nat → Nat → Nat → Nat → Except Unit (Nat × List Char)
  | 0, _, _, _, _, _ => .error ()
  | fuel + 1, bytes, delta, w, k, bias =>
    let k2 := k + 36
    let t := min (max (k2 - bias) 1) 26
    match bytes with
    | [] => .error ()
    | b :: rest =>
      match punyDigit b with
      | none => .error ()
      | some d =>
        if d * w < U64LIMIT then
          if delta + d * w < U64LIMIT then
            let delta2 := delta + d * w
            if d < t then .ok (delta2, rest)
            else
              if w * (36 - t) < U64LIMIT then
                punyDeltaLoop fuel rest delta2 (w * (36 - t)) k2 bias
              else .error ()
          else .error ()
        else .error ()

/-- Bias adaptation loop of Ident::punycode_decode: while delta exceeds
((base - t_min) * t_max) / 2 = 455, divide it by base - t_min = 35 and add
base to k.  Returns the final delta and k. -/
def biasAdaptLoop (delta k : Nat) : Nat × Nat :=
  if h : 455 < delta then biasAdaptLoop (delta / 35) (k + 36)
  else (delta, k)
termination_by delta
decreasing_by exact Nat.div_lt_self (by omega) (by omega)

/-- Main loop of Ident::punycode_decode, composed with the insertion
callback of Ident::try_small_punycode_decode: read a delta, update the
insertion position and codepoint (checked), require the codepoint to fit in
u32 and be a valid scalar value, insert into the small buffer, then either
finish or adapt the bias and continue.  State: remaining punycode bytes,
buffer contents, len, i, n, bias and damp.  Fuel only has to exceed the
number of remaining bytes. -/
def punyOuter : Nat → List Char → List Char → Nat → Nat → Nat → Nat → Nat → Except DErr (List Char)
  | 0, _, _, _, _, _, _, _ => .error .fail
  | fuel + 1, bytes, out, len, i, n, bias, damp =>
    match punyDeltaLoop (bytes.length + 1) bytes 0 1 0 bias with
    | .error _ => .error .fail
    | .ok (delta, rest) =>
      let len2 := len + 1
      if i + delta < U64LIMIT then
        let i2 := i + delta
        if n + i2 / len2 < U64LIMIT then
          let n2 := n + i2 / len2
          let i3 := i2 % len2
          if n2 < 2 ^ 32 ∧ (n2 < 55296 ∨ (57343 < n2 ∧ n2 < 1114112)) then
            let c := Char.ofNat n2
            match smallInsert out i3 c with
            | .error e => .error e
            | .ok out2 =>
              let i4 := i3 + 1
              if rest = [] then .ok out2
              else
                let delta2 := delta / damp
                let delta3 := delta2 + delta2 / len2
                let bk := biasAdaptLoop delta3 0
                let bias2 := bk.2 + (36 * bk.1) / (bk.1 + 38)
                punyOuter fuel rest out2 len2 i4 n2 bias2 2
          else .error .fail
        else .error .fail
      else .error .fail

/-- Loop of Ident::punycode_decode populating the initial output from the
ASCII fragment: each character is inserted at the current length. -/
def insertAsciiLoop : List Char → List Char → Nat → Except DErr (List Char × Nat)
  | out, [], len => .ok (out, len)
  | out, c :: cs, len =>
    match smallInsert out len c with
    | .ok out2 => insertAsciiLoop out2 cs (len + 1)
    | .error e => .error e

/-- Ident::punycode_decode composed with the 128-character stack buffer of
Ident::try_small_punycode_decode: empty punycode fails immediately, the
ASCII part seeds the buffer, and the main loop decodes the deltas with
initial damp 700, bias 72, i = 0 and n = 0x80. -/
def punycodeDecodeSmall (id : Ident) : Except DErr (List Char) :=
  if id.punycode = [] then .error .fail
  else
    match insertAsciiLoop [] id.ascii 0 with
    | .error e => .error e
    | .ok (out, len) => punyOuter (id.punycode.length + 1) id.punycode out len 0 128 72 700

/-- Ident::fmt: print the decoded characters when the small punycode decode
succeeds; otherwise fall back to the punycode literal (with the ASCII part
and a dash when the ASCII part is non-empty), or to the plain ASCII part
when there is no punycode part. -/
def identDisplay (id : Ident) : String :=
  match punycodeDecodeSmall id with
  | .ok chars => String.mk chars
  | .error _ =>
    if id.punycode ≠ [] then
      "punycode\x7b" ++ (if id.ascii ≠ [] then String.mk id.ascii ++ "-" else "")
        ++ String.mk id.punycode ++ "\x7d"
    else String.mk id.ascii

/-- Digit character for bases up to 16 (lower-case letters). -/
def digitCh (d : Nat) : Char :=
  if d < 10 then Char.ofNat (48 + d) else Char.ofNat (87 + d)

/-- Digits of a number in the given base, most significant first; the fuel
needs only to be positive and at least the number itself. -/
def natToBase (base : Nat) : Nat → Nat → List Char → List Char
  | 0, _, acc => acc
  | fuel + 1, n, acc =>
    if n = 0 then acc else natToBase base fuel (n / base) (digitCh (n % base) :: acc)

/-- Decimal rendering of a number (the Display formatting of u64). -/
def decStr (n : Nat) : String :=
  if n = 0 then "0" else String.mk (natToBase 10 (n + 1) n [])

/-- Lower-case hex rendering of a number (the LowerHex formatting of u64). -/
def hexStr (n : Nat) : String :=
  if n = 0 then "0" else String.mk (natToBase 16 (n + 1) n [])

/-- Value of a lower-case hex digit. -/
def hexVal (c : Char) : Nat := if c.toNat ≤ 57 then c.toNat - 48 else c.toNat - 87

/-- Fold a list of hex nibbles into a value (the v = (v shl 4) or digit
loops of Printer::print_const_uint and print_const_char). -/
def hexFold (l : List Char) : Nat := l.foldl (fun v c => v * 16 + hexVal c) 0

/-- Split a character list at underscores (str::split with separator
underscore); always returns at least one part. -/
def splitUnd : List Char → List (List Char)
  | [] => [[]]
  | c :: rest =>
    if c = '_' then [] :: splitUnd rest
    else
      match splitUnd rest with
      | s :: ss => (c :: s) :: ss
      | [] => [[c]]

/-- ABI string rendering in Printer::print_type for the F tag: the parts
between underscores are re-joined with dashes. -/
def abiDisplay (abi : List Char) : String :=
  match splitUnd abi with
  | [] => ""
  | p :: ps => String.mk p ++ String.join (ps.map (fun q => "-" ++ String.mk q))

/-- The Debug formatting of a char as used by Printer::print_const_char:
quoted, with the standard short escapes; other characters print verbatim
when printable and as a hex escape otherwise.  The printability test of the
Rust core library consults Unicode tables; here it is approximated by the
printable ASCII range, which agrees with the Rust behavior on all ASCII
characters (no theorem below depends on non-ASCII char constants). -/
def charDebug (c : Char) : String :=
  let q := String.singleton (Char.ofNat 39)
  let body :=
    if c = Char.ofNat 9 then "\\t"
    else if c = Char.ofNat 13 then "\\r"
    else if c = Char.ofNat 10 then "\\n"
    else if c = Char.ofNat 92 then "\\\\"
    else if c = Char.ofNat 39 then "\\" ++ String.singleton (Char.ofNat 39)
    else if c = Char.ofNat 34 then "\\\""
    else if 32 ≤ c.toNat ∧ c.toNat < 127 then String.singleton c
    else "\\u\x7b" ++ hexStr c.toNat ++ "\x7d"
  q ++ body ++ q

/-- Printer state (struct Printer in v0.rs).  The output formatter is
modelled by an accumulated output string plus a sink flag (false models a
detached formatter, that is skipping mode) and the alternate flag of the
formatter.  The pushes and pops fields are inert instrumentation counting
the executed Parser::push_depth and Parser::pop_depth calls; they influence
nothing. -/
structure PState where
  parser : Except ParseError Parser
  out : String
  sink : Bool
  alternate : Bool
  boundLifetimeDepth : Nat
  pushes : Nat
  pops : Nat
deriving Repr

/-- Printer::print: append to the output unless printing is being skipped. -/
def PState.print (st : PState) (s : String) : PState :=
  if st.sink then { st with out := st.out ++ s } else st

/-- Whether the parser has errored. -/
def PState.parserIsErr (st : PState) : Bool :=
  match st.parser with
  | .error _ => true
  | .ok _ => false

/-- The invalid! macro of v0.rs: print the Invalid message, mark the parser
as errored (the caller then returns early). -/
def PState.invalidMark (st : PState) : PState :=
  { st.print ParseError.invalid.message with parser := .error ParseError.invalid }

/-- The parse! macro of v0.rs: call a parser method if the parser has not
errored yet.  On success the value is returned for the continuation; on a
new error the message is printed and the parser marked as errored; if the
parser had already errored only a question mark is printed.  A none result
makes the caller return early with the given state. -/
def parseWith {α : Type} (m : Parser → Except ParseError (α × Parser)) (st : PState) :
    Option α × PState :=
  match st.parser with
  | .ok p =>
    match m p with
    | .ok (x, p2) => (some x, { st with parser := .ok p2 })
    | .error e => (none, { st.print e.message with parser := .error e })
  | .error _ => (none, st.print "?")

/-- The early-return pattern of the parse! macro: run the parser method and
either stop with the error state or continue with the parsed value. -/
def withParse {α : Type} (m : Parser → Except ParseError (α × Parser))
    (k : α → PState → PState) (st : PState) : PState :=
  match parseWith m st with
  | (none, st1) => st1
  | (some x, st1) => k x st1

/-- parse!(self, push_depth), with the executed push_depth call counted. -/
def PState.parsePushDepth (st : PState) : Option Unit × PState :=
  match st.parser with
  | .ok p =>
    match p.pushDepth with
    | .ok p2 => (some (), { st with parser := .ok p2, pushes := st.pushes + 1 })
    | .error e =>
      (none, { st.print e.message with parser := .error e, pushes := st.pushes + 1 })
  | .error _ => (none, st.print "?")

/-- The push_depth prologue shared by print_path, print_type and
print_const: on failure return early, otherwise continue. -/
def withPushScope (body : PState → PState) (st : PState) : PState :=
  match st.parsePushDepth with
  | (none, st1) => st1
  | (some _, st1) => body st1

/-- Printer::pop_depth: pop (and count the executed call) only when the
parser has not errored.  Because this is a no-op on an errored state, the
shared pop_depth epilogue of the source (which early returns skip) can be
applied to every outcome of a production body. -/
def PState.popDepthP (st : PState) : PState :=
  match st.parser with
  | .ok p => { st with parser := .ok p.popDepth, pops := st.pops + 1 }
  | .error _ => st

/-- Printer::eat. -/
def PState.eatP (st : PState) (b : Char) : Bool × PState :=
  match st.parser with
  | .ok p =>
    let e := p.eat b
    (e.1, { st with parser := .ok e.2 })
  | .error _ => (false, st)

/-- Printer::skipping_printing: detach the output sink for the duration of
the closure, restoring it afterwards. -/
def skippingPrinting (f : PState → PState) (st : PState) : PState :=
  let origSink := st.sink
  let st1 := f { st with sink := false }
  { st1 with sink := origSink }

/-- parse!(self, backref), with Parser::backref split so the push_depth
executed on the spawned parser is counted: spawn the sub-parser, then
push_depth on it; any failure behaves like a failing parse! call. -/
def PState.parseBackref (st : PState) : Option Parser × PState :=
  match st.parser with
  | .ok p =>
    match p.backrefSpawn with
    | .ok (np, p2) =>
      match np.pushDepth with
      | .ok np2 => (some np2, { st with parser := .ok p2, pushes := st.pushes + 1 })
      | .error e =>
        (none, { st.print e.message with parser := .error e, pushes := st.pushes + 1 })
    | .error e => (none, { st.print e.message with parser := .error e })
  | .error _ => (none, st.print "?")

/-- Printer::print_backref: parse the backref; when skipping, ignore its
target; otherwise swap in the spawned parser, run the closure, and restore
the saved parser (discarding whatever state, including errors, the closure
left in the swapped parser). -/
def printBackref (f : PState → PState) (st : PState) : PState :=
  match st.parseBackref with
  | (none, st1) => st1
  | (some bp, st1) =>
    if !st1.sink then st1
    else
      let orig := st1.parser
      let st2 := f { st1 with parser := .ok bp }
      { st2 with parser := orig }

/-- Printer::print_backref as used by print_path_maybe_open_generics, where
the closure also produces the open flag; when the closure is not run the
flag stays false (its value does not matter while skipping). -/
def printBackrefOpen (f : PState → Bool × PState) (st : PState) : Bool × PState :=
  match st.parseBackref with
  | (none, st1) => (false, st1)
  | (some bp, st1) =>
    if !st1.sink then (false, st1)
    else
      let orig := st1.parser
      let r := f { st1 with parser := .ok bp }
      (r.1, { r.2 with parser := orig })

/-- Printer::print_lifetime_from_index: nothing while skipping; index 0 is
the anonymous lifetime; otherwise the index is subtracted (checked) from
the bound lifetime depth, yielding a letter for the first 26 levels and an
underscore-number form beyond; a failing subtraction is invalid. -/
def printLifetimeFromIndex (st : PState) (lt : Nat) : PState :=
  if !st.sink then st
  else
    let s := st.print (String.singleton (Char.ofNat 39))
    if lt = 0 then s.print "_"
    else if lt ≤ s.boundLifetimeDepth then
      let depth := s.boundLifetimeDepth - lt
      if depth < 26 then s.print (String.singleton (Char.ofNat (97 + depth)))
      else (s.print "_").print (decStr depth)
    else s.invalidMark

/-- The lifetime-introduction loop of Printer::in_binder: print the
separator after the first iteration, increment the bound lifetime depth and
print the index-1 lifetime. -/
def printBinderLifetimes : PState → Nat → Nat → PState
  | st, 0, _ => st
  | st, n + 1, i =>
    let s := if 0 < i then st.print ", " else st
    let s2 : PState := { s with boundLifetimeDepth := s.boundLifetimeDepth + 1 }
    let s3 := printLifetimeFromIndex s2 1
    printBinderLifetimes s3 n (i + 1)

/-- Printer::in_binder: parse the optional binder count (G tag); while
skipping, bound lifetimes are not tracked; otherwise print the binder
introduction, run the closure, and restore the bound lifetime depth. -/
def inBinder (f : PState → PState) (st : PState) : PState :=
  match parseWith (fun p => p.optInteger62 'G') st with
  | (none, st1) => st1
  | (some bound, st1) =>
    if !st1.sink then f st1
    else
      let st2 :=
        if 0 < bound then (printBinderLifetimes (st1.print "for<") bound 0).print "> "
        else st1
      let st3 := f st2
      { st3 with boundLifetimeDepth := st3.boundLifetimeDepth - bound }

/-- Printer::print_const_uint: parse hex nibbles; more than 16 nibbles
print verbatim with a 0x prefix, otherwise the value prints in decimal. -/
def printConstUint (st : PState) : PState :=
  withParse Parser.hexNibbles
    (fun hex s =>
      if 16 < hex.length then (s.print "0x").print (String.mk hex)
      else s.print (decStr (hexFold hex))) st

/-- Printer::print_const_int: an optional n tag prints a minus sign, then
as print_const_uint. -/
def printConstInt (st : PState) : PState :=
  let e := st.eatP 'n'
  let s := if e.1 then e.2.print "-" else e.2
  printConstUint s

/-- Printer::print_const_bool: hex nibbles 0 and 1 are false and true,
anything else is invalid. -/
def printConstBool (st : PState) : PState :=
  withParse Parser.hexNibbles
    (fun hex s =>
      if hex = ['0'] then s.print "false"
      else if hex = ['1'] then s.print "true"
      else s.invalidMark) st

/-- Printer::print_const_char: at most 8 hex nibbles whose value is a valid
scalar, printed with Debug formatting; otherwise invalid. -/
def printConstChar (st : PState) : PState :=
  withParse Parser.hexNibbles
    (fun hex s =>
      if 8 < hex.length then s.invalidMark
      else
        let v := hexFold hex
        if v < 55296 ∨ (57343 < v ∧ v < 1114112) then s.print (charDebug (Char.ofNat v))
        else s.invalidMark) st

/-- Result of exhausting the fuel of a printer production.  With adequate
fuel this is never reached (the Rust code needs no fuel); marking the
parser as errored ensures a truncated run is never mistaken for a
completed one by any theorem below. -/
def PState.fuelOut (st : PState) : PState :=
  match st.parser with
  | .ok _ => { st with parser := .error .recursedTooDeep }
  | .error _ => st

/-- The cursor backup in the fallback arm of Printer::print_type (go back
to the tag so print_path sees it). -/
def PState.unreadByte (st : PState) : PState :=
  match st.parser with
  | .ok p => { st with parser := .ok { p with next := p.next - 1 } }
  | .error _ => st

/-- Unsigned integer const type tags. -/
def isUintTag (c : Char) : Bool :=
  c = 'h' || c = 't' || c = 'm' || c = 'y' || c = 'o' || c = 'j'

/-- Signed integer const type tags. -/
def isIntTag (c : Char) : Bool :=
  c = 'a' || c = 's' || c = 'l' || c = 'x' || c = 'n' || c = 'i'

/-- Call descriptors for the recursive printer productions of v0.rs.  The
productions are mutually recursive in the source; here they are packed
into one function, structurally recursive over fuel, so that every
recursive call is a projection of the same recursion tower (the Rust code
needs no fuel: its recursion is bounded by the depth counter and by input
consumption).  The sepList constructor carries the element production,
mirroring the higher-order print_sep_list. -/
inductive PCall where
  | path (inValue : Bool)
  | type
  | const
  | genericArg
  | fnSigRest (isUnsafe : Bool) (abi : Option String)
  | dynTrait
  | dynTraitRest (opened : Bool)
  | maybeOpenGenerics
  | sepList (elem : PCall) (sep : String) (i : Nat)

/-- Result of a printer production: the state, the open flag of
print_path_maybe_open_generics and the element count of print_sep_list
(both meaningful only for the corresponding calls). -/
structure PRes where
  st : PState
  flag : Bool
  count : Nat

/-- A result carrying only a state. -/
def PRes.ofSt (st : PState) : PRes := ⟨st, false, 0⟩

/-- The recursive printer productions of v0.rs (print_path,
print_generic_arg, print_type, print_const, print_path_maybe_open_generics,
print_dyn_trait and print_sep_list), dispatched on the call descriptor.
Each production consumes one unit of fuel; the pop_depth epilogues of
print_path, print_type and print_const are applied to the outcome of the
whole tag dispatch, which agrees with the shared epilogue of the source
because the early returns that skip it all leave the parser errored and
pop_depth is a no-op on an errored printer. -/
def printerGo : Nat → PCall → PState → PRes
  | 0, _, st => .ofSt st.fuelOut
  | fuel + 1, call, st =>
    match call with
    | .path inValue =>
      .ofSt (withPushScope (fun st1 =>
        (withParse Parser.nextByte (fun tag st2 =>
          if tag = 'C' then
            withParse Parser.disambiguator (fun dis s =>
              withParse Parser.ident (fun name s2 =>
                let s3 := s2.print (identDisplay name)
                if s3.sink && !s3.alternate then
                  ((s3.print "[").print (hexStr dis)).print "]"
                else s3) s) st2
          else if tag = 'N' then
            withParse Parser.namespaceTag (fun ns s =>
              let s1 := (printerGo fuel (.path inValue) s).st
              let s2 := if s1.parserIsErr then s1.print "::" else s1
              withParse Parser.disambiguator (fun dis s3 =>
                withParse Parser.ident (fun name s4 =>
                  match ns with
                  | some c =>
                    let s5 := s4.print "::\x7b"
                    let s6 :=
                      if c = 'C' then s5.print "closure"
                      else if c = 'S' then s5.print "shim"
                      else s5.print (String.singleton c)
                    let s7 :=
                      if name.ascii ≠ [] ∨ name.punycode ≠ [] then
                        (s6.print ":").print (identDisplay name)
                      else s6
                    ((s7.print "#").print (decStr dis)).print "\x7d"
                  | none =>
                    if name.ascii ≠ [] ∨ name.punycode ≠ [] then
                      (s4.print "::").print (identDisplay name)
                    else s4) s3) s2) st2
          else if tag = 'Y' then
            let s := st2.print "<"
            let s1 := (printerGo fuel .type s).st
            let s2 := (printerGo fuel (.path false) (s1.print " as ")).st
            s2.print ">"
          else if tag = 'M' ∨ tag = 'X' then
            withParse Parser.disambiguator (fun _ s =>
              let s1 := skippingPrinting (fun q => (printerGo fuel (.path false) q).st) s
              let s2 := s1.print "<"
              let s3 := (printerGo fuel .type s2).st
              let s4 :=
                if tag ≠ 'M' then (printerGo fuel (.path false) (s3.print " as ")).st
                else s3
              s4.print ">") st2
          else if tag = 'I' then
            let s := (printerGo fuel (.path inValue) st2).st
            let s1 := if inValue then s.print "::" else s
            let s2 := s1.print "<"
            let r := printerGo fuel (.sepList .genericArg ", " 0) s2
            r.st.print ">"
          else if tag = 'B' then
            printBackref (fun q => (printerGo fuel (.path inValue) q).st) st2
          else st2.invalidMark) st1).popDepthP) st)
    | .genericArg =>
      let e := st.eatP 'L'
      if e.1 then
        .ofSt (withParse Parser.integer62 (fun lt s => printLifetimeFromIndex s lt) e.2)
      else
        let e2 := e.2.eatP 'K'
        if e2.1 then .ofSt (printerGo fuel .const e2.2).st
        else .ofSt (printerGo fuel .type e2.2).st
    | .type =>
      .ofSt (withParse Parser.nextByte (fun tag st1 =>
        match basicType tag with
        | some ty => st1.print ty
        | none =>
          withPushScope (fun st2 =>
            ((if tag = 'R' ∨ tag = 'Q' then
                let s := st2.print "&"
                let e := s.eatP 'L'
                if e.1 then
                  withParse Parser.integer62 (fun lt s2 =>
                    let s3 :=
                      if lt ≠ 0 then (printLifetimeFromIndex s2 lt).print " " else s2
                    let s4 := if tag ≠ 'R' then s3.print "mut " else s3
                    (printerGo fuel .type s4).st) e.2
                else
                  let s4 := if tag ≠ 'R' then e.2.print "mut " else e.2
                  (printerGo fuel .type s4).st
              else if tag = 'P' ∨ tag = 'O' then
                let s := st2.print "*"
                let s1 := if tag ≠ 'P' then s.print "mut " else s.print "const "
                (printerGo fuel .type s1).st
              else if tag = 'A' ∨ tag = 'S' then
                let s := st2.print "["
                let s1 := (printerGo fuel .type s).st
                let s2 :=
                  if tag = 'A' then (printerGo fuel .const (s1.print "; ")).st else s1
                s2.print "]"
              else if tag = 'T' then
                let s := st2.print "("
                let r := printerGo fuel (.sepList .type ", " 0) s
                let s1 := if r.count = 1 then r.st.print "," else r.st
                s1.print ")"
              else if tag = 'F' then
                inBinder (fun s =>
                  let eU := s.eatP 'U'
                  let isUnsafe := eU.1
                  let eK := eU.2.eatP 'K'
                  if eK.1 then
                    let eC := eK.2.eatP 'C'
                    if eC.1 then (printerGo fuel (.fnSigRest isUnsafe (some "C")) eC.2).st
                    else
                      withParse Parser.ident (fun abi s2 =>
                        if abi.ascii = [] ∨ abi.punycode ≠ [] then s2.invalidMark
                        else
                          (printerGo fuel
                            (.fnSigRest isUnsafe (some (abiDisplay abi.ascii))) s2).st)
                        eK.2
                  else (printerGo fuel (.fnSigRest isUnsafe none) eK.2).st) st2
              else if tag = 'D' then
                let s := st2.print "dyn "
                let s1 := inBinder
                  (fun s2 => (printerGo fuel (.sepList .dynTrait " + " 0) s2).st) s
                let e := s1.eatP 'L'
                if !e.1 then e.2.invalidMark
                else
                  withParse Parser.integer62 (fun lt s2 =>
                    if lt ≠ 0 then printLifetimeFromIndex (s2.print " + ") lt else s2) e.2
              else if tag = 'B' then
                printBackref (fun q => (printerGo fuel .type q).st) st2
              else
                (printerGo fuel (.path false) st2.unreadByte).st)).popDepthP) st1) st)
    | .fnSigRest isUnsafe abi =>
      let s := if isUnsafe then st.print "unsafe " else st
      let s1 :=
        match abi with
        | some a => ((s.print "extern \"").print a).print "\" "
        | none => s
      let s2 := s1.print "fn("
      let r := printerGo fuel (.sepList .type ", " 0) s2
      let s3 := r.st.print ")"
      let e := s3.eatP 'u'
      if e.1 then .ofSt e.2
      else .ofSt (printerGo fuel .type (e.2.print " -> ")).st
    | .const =>
      .ofSt (withPushScope (fun st1 =>
        (let e := st1.eatP 'B'
         if e.1 then printBackref (fun q => (printerGo fuel .const q).st) e.2
         else
           withParse Parser.nextByte (fun tyTag st2 =>
             if tyTag = 'p' then st2.print "_"
             else if isUintTag tyTag || isIntTag tyTag || tyTag = 'b' || tyTag = 'c' then
               let s :=
                 if isUintTag tyTag then printConstUint st2
                 else if isIntTag tyTag then printConstInt st2
                 else if tyTag = 'b' then printConstBool st2
                 else printConstChar st2
               if s.sink && !s.alternate then
                 (s.print ": ").print ((basicType tyTag).getD "")
               else s
             else st2.invalidMark) e.2).popDepthP) st)
    | .maybeOpenGenerics =>
      let e := st.eatP 'B'
      if e.1 then
        let r := printBackrefOpen
          (fun q =>
            let r2 := printerGo fuel .maybeOpenGenerics q
            (r2.flag, r2.st)) e.2
        ⟨r.2, r.1, 0⟩
      else
        let e2 := e.2.eatP 'I'
        if e2.1 then
          let s := (printerGo fuel (.path false) e2.2).st
          let s1 := s.print "<"
          let r := printerGo fuel (.sepList .genericArg ", " 0) s1
          ⟨r.st, true, 0⟩
        else ⟨(printerGo fuel (.path false) e2.2).st, false, 0⟩
    | .dynTrait =>
      let r := printerGo fuel .maybeOpenGenerics st
      .ofSt (printerGo fuel (.dynTraitRest r.flag) r.st).st
    | .dynTraitRest opened =>
      let e := st.eatP 'p'
      if e.1 then
        let s := if !opened then e.2.print "<" else e.2.print ", "
        .ofSt (withParse Parser.ident (fun name s2 =>
          let s3 := (s2.print (identDisplay name)).print " = "
          let s4 := (printerGo fuel .type s3).st
          (printerGo fuel (.dynTraitRest true) s4).st) s)
      else if opened then .ofSt (e.2.print ">")
      else .ofSt e.2
    | .sepList elem sep i =>
      match st.parser with
      | .error _ => ⟨st, false, i⟩
      | .ok _ =>
        let e := st.eatP 'E'
        if e.1 then ⟨e.2, false, i⟩
        else
          let s := if 0 < i then e.2.print sep else e.2
          let s2 := (printerGo fuel elem s).st
          printerGo fuel (.sepList elem sep (i + 1)) s2

/-- Printer::print_path. -/
def printPath (fuel : Nat) (inValue : Bool) (st : PState) : PState :=
  (printerGo fuel (.path inValue) st).st

/-- Printer::print_type. -/
def printType (fuel : Nat) (st : PState) : PState := (printerGo fuel .type st).st

/-- Printer::print_const. -/
def printConst (fuel : Nat) (st : PState) : PState := (printerGo fuel .const st).st

/-- Printer::print_generic_arg. -/
def printGenericArg (fuel : Nat) (st : PState) : PState :=
  (printerGo fuel .genericArg st).st

/-- Initial printer state over a symbol body. -/
def initPState (sym : List Char) (alternate sink : Bool) : PState :=
  { parser := .ok { sym := sym, next := 0, depth := 0 }
    out := ""
    sink := sink
    alternate := alternate
    boundLifetimeDepth := 0
    pushes := 0
    pops := 0 }

/-- The Display implementation of the v0 Demangle handle: run print_path in
value position over the symbol body with an attached formatter. -/
def v0DisplayRun (inner : List Char) (alternate : Bool) (fuel : Nat) : PState :=
  printPath fuel true (initPState inner alternate true)

/-- Upper-case letter test (the A to Z byte range). -/
def isUpperAZ (c : Char) : Bool := 65 ≤ c.toNat && c.toNat ≤ 90

/-- v0::demangle: strip the v0 envelope prefix, require an upper-case
first byte and ASCII-only content, dry-parse the path with a detached
formatter (and a second path when an instantiating crate follows), and
return the symbol body together with the unparsed suffix. -/
def demangleV0 (s : List Char) (fuel : Nat) : Except ParseError (List Char × List Char) :=
  let innerOpt : Option (List Char) :=
    if 2 < s.length ∧ ('_' :: 'R' :: []).isPrefixOf s then some (s.drop 2)
    else if 1 < s.length ∧ ('R' :: []).isPrefixOf s then some (s.drop 1)
    else if 3 < s.length ∧ ('_' :: '_' :: 'R' :: []).isPrefixOf s then some (s.drop 3)
    else none
  match innerOpt with
  | none => .error .invalid
  | some inner =>
    match inner.head? with
    | none => .error .invalid
    | some c0 =>
      if !isUpperAZ c0 then .error .invalid
      else if !inner.all (fun c => c.toNat < 128) then .error .invalid
      else
        let st1 := printPath fuel false (initPState inner false false)
        match st1.parser with
        | .error e => .error e
        | .ok p =>
          if (match p.sym.get? p.next with
              | some c => isUpperAZ c
              | none => false) then
            let st2 := printPath fuel false { st1 with parser := .ok p }
            match st2.parser with
            | .error e => .error e
            | .ok p2 => .ok (inner, p2.sym.drop p2.next)
          else .ok (inner, p.sym.drop p.next)

/-- Demangle a v0 symbol and display it: the envelope recognition and dry
parse of v0::demangle followed by the Display run over the body. -/
def demangleDisplayV0 (s : String) (alternate : Bool) (fuel : Nat) : Option String :=
  match demangleV0 s.toList fuel with
  | .ok (inner, _) => some (v0DisplayRun inner alternate fuel).out
  | .error _ => none

/-- Checked decimal accumulation of the element-length loop of
legacy::demangle (usize checked_mul and checked_add), over the digit run. -/
def accDigitsFrom : Nat → List Char → Option Nat
  | x, [] => some x
  | x, c :: cs =>
    if x * 10 < U64LIMIT ∧ x * 10 + digit10Val c < U64LIMIT then
      accDigitsFrom (x * 10 + digit10Val c) cs
    else none

/-- Decimal value of a digit run (no bound). -/
def val10 (ds : List Char) : Nat := ds.foldl (fun a c => a * 10 + digit10Val c) 0

/-- The element-consuming loop of legacy::demangle: read a greedy decimal
length with checked accumulation; length zero requires the end of the
input, otherwise the length many following characters are consumed and the
element count grows.  Returns the number of elements.  The fuel needs only
to exceed the input length, since every iteration consumes at least one
character. -/
def elemLoopF : Nat → List Char → Option Nat
  | 0, _ => none
  | fuel + 1, cs =>
    let ds := cs.takeWhile isDigit10
    let rest := cs.dropWhile isDigit10
    match accDigitsFrom 0 ds with
    | none => none
    | some i =>
      if i = 0 then (if rest = [] then some 0 else none)
      else if rest.length < i then none
      else (elemLoopF fuel (rest.drop i)).map (· + 1)

/-- The element loop at adequate fuel. -/
def elemLoop (cs : List Char) : Option Nat := elemLoopF (cs.length + 1) cs

/-- legacy::demangle: accept a _ZN, ZN or __ZN prefix (with the length
bounds of the source) and a final E, require ASCII-only content in between,
and run the element loop; returns the interior and the element count. -/
def legacyParse (s : List Char) : Option (List Char × Nat) :=
  let innerOpt : Option (List Char) :=
    if 4 < s.length ∧ ('_' :: 'Z' :: 'N' :: []).isPrefixOf s ∧ s.getLast? = some 'E' then
      some ((s.drop 3).dropLast)
    else if 3 < s.length ∧ ('Z' :: 'N' :: []).isPrefixOf s ∧ s.getLast? = some 'E' then
      some ((s.drop 2).dropLast)
    else if 5 < s.length ∧ ('_' :: '_' :: 'Z' :: 'N' :: []).isPrefixOf s ∧ s.getLast? = some 'E' then
      some ((s.drop 4).dropLast)
    else none
  match innerOpt with
  | none => none
  | some inner =>
    if !inner.all (fun c => c.toNat < 128) then none
    else (elemLoop inner).map (fun n => (inner, n))

/-- Hex digit in the sense of char::is_digit(16): 0 to 9, a to f, A to F. -/
def isHexDigit16 (c : Char) : Bool :=
  (48 ≤ c.toNat && c.toNat ≤ 57) || (97 ≤ c.toNat && c.toNat ≤ 102)
    || (65 ≤ c.toNat && c.toNat ≤ 70)

/-- is_rust_hash in legacy.rs: an h followed by hex digits (the digit run
may be empty, since an all test over an empty remainder holds). -/
def isRustHash (s : List Char) : Bool :=
  match s with
  | 'h' :: rest => rest.all isHexDigit16
  | _ => false

/-- The escape table of the legacy Display implementation, in source
order. -/
def escapeTable : List (List Char × List Char) :=
  [("$SP$".toList, "@".toList), ("$BP$".toList, "*".toList),
   ("$RF$".toList, "&".toList), ("$LT$".toList, "<".toList),
   ("$GT$".toList, ">".toList), ("$LP$".toList, "(".toList),
   ("$RP$".toList, ")".toList), ("$C$".toList, ",".toList),
   ("$u7e$".toList, "~".toList), ("$u20$".toList, " ".toList),
   ("$u27$".toList, "\x27".toList), ("$u3d$".toList, "=".toList),
   ("$u5b$".toList, "[".toList), ("$u5d$".toList, "]".toList),
   ("$u7b$".toList, "\x7b".toList), ("$u7d$".toList, "\x7d".toList),
   ("$u3b$".toList, ";".toList), ("$u2b$".toList, "+".toList),
   ("$u21$".toList, "!".toList), ("$u22$".toList, "\"".toList)]

/-- First matching escape of the table at the head of the element rest. -/
def findEscape : List (List Char × List Char) → List Char → Option (List Char × List Char)
  | [], _ => none
  | (pat, out) :: tbl, l =>
    if pat.isPrefixOf l then some (out, l.drop pat.length) else findEscape tbl l

/-- The escape-substitution loop of the legacy Display implementation over
one element: double dots become path separators, dollar escapes are
substituted (an unknown dollar escape emits the remainder verbatim and
stops), and plain runs up to the next dollar or dot are copied.  The fuel
needs only to exceed the element length. -/
def escapeElemF : Nat → List Char → List Char
  | 0, _ => []
  | fuel + 1, l =>
    match l with
    | [] => []
    | '.' :: rest =>
      match rest with
      | '.' :: rest2 => "::".toList ++ escapeElemF fuel rest2
      | _ => '.' :: escapeElemF fuel rest
    | '$' :: _ =>
      match findEscape escapeTable l with
      | some (out, rest) => out ++ escapeElemF fuel rest
      | none => l
    | c :: rest =>
      (c :: rest.takeWhile (fun x => x ≠ '$' ∧ x ≠ '.'))
        ++ escapeElemF fuel (rest.dropWhile (fun x => x ≠ '$' ∧ x ≠ '.'))

/-- Escape substitution at adequate fuel. -/
def escapeElem (l : List Char) : List Char := escapeElemF (l.length + 1) l

/-- The element loop of the legacy Display implementation: split off the
greedy digit run and the element it measures; in alternate mode the last
element is dropped when it is a hash; otherwise elements are joined with
double colons, a leading underscore before a dollar is elided, and the
element is escape-substituted. -/
def legacyFmtLoop : Nat → Nat → List Char → Bool → List Char → List Char
  | 0, _, _, _, acc => acc
  | r + 1, idx, inner, alt, acc =>
    let rest0 := inner.dropWhile isDigit10
    let i := val10 (inner.takeWhile isDigit10)
    let inner2 := rest0.drop i
    let rest := rest0.take i
    if alt ∧ r = 0 ∧ isRustHash rest then acc
    else
      let acc1 := if idx ≠ 0 then acc ++ "::".toList else acc
      let rest2 := if ('_' :: '$' :: []).isPrefixOf rest then rest.drop 1 else rest
      let acc2 := acc1 ++ escapeElem rest2
      legacyFmtLoop r (idx + 1) inner2 alt acc2

/-- The legacy Display implementation over a parsed interior. -/
def legacyFmt (inner : List Char) (elements : Nat) (alt : Bool) : String :=
  String.mk (legacyFmtLoop elements 0 inner alt [])

/-- Demangle a legacy symbol and display it. -/
def legacyDisplay (s : String) (alt : Bool) : Option String :=
  (legacyParse s.toList).map (fun r => legacyFmt r.1 r.2 alt)

/-- Spec-side interior predicate for the legacy recognizer, following the
claim read with the greedy length parse of the spec (section 4.B): the
interior is a sequence of decimal-length-prefixed elements, each greedy
decimal length claiming exactly that many following characters, with
nothing left over (a length of zero, which the greedy parse can only
produce from an all-zero digit run, claims no characters and must be
followed by nothing).  No overflow bound appears here: lengths are
unbounded naturals.  The fuel needs only to exceed the interior length. -/
def specInteriorOkF : Nat → List Char → Bool
  | 0, _ => false
  | fuel + 1, cs =>
    if cs = [] then true
    else
      let ds := cs.takeWhile isDigit10
      let rest := cs.dropWhile isDigit10
      if ds = [] then false
      else
        let n := val10 ds
        if n = 0 then rest = []
        else if rest.length < n then false
        else specInteriorOkF fuel (rest.drop n)

/-- The spec-side interior predicate at adequate fuel. -/
def specInteriorOk (cs : List Char) : Bool := specInteriorOkF (cs.length + 1) cs

/-- Spec-side legacy recognizer exactly as the claim states it: the string
begins with one of the three prefixes and ends with E, every byte between
prefix and final E is seven-bit ASCII, and that interior is exactly a
sequence of decimal-length-prefixed elements with nothing left over. -/
def specLegacyAccepts (s : List Char) : Bool :=
  let stripped : Option (List Char) :=
    if ('_' :: 'Z' :: 'N' :: []).isPrefixOf s ∧ s.getLast? = some 'E' then
      some ((s.drop 3).dropLast)
    else if ('Z' :: 'N' :: []).isPrefixOf s ∧ s.getLast? = some 'E' then
      some ((s.drop 2).dropLast)
    else if ('_' :: '_' :: 'Z' :: 'N' :: []).isPrefixOf s ∧ s.getLast? = some 'E' then
      some ((s.drop 4).dropLast)
    else none
  match stripped with
  | none => false
  | some interior => interior.all (fun c => c.toNat < 128) && specInteriorOk interior

/-- Spec-side legacy recognizer as amended: additionally the interior
(between the prefix and the final E) must be non-empty. -/
def specLegacyAcceptsAmended (s : List Char) : Bool :=
  let stripped : Option (List Char) :=
    if ('_' :: 'Z' :: 'N' :: []).isPrefixOf s ∧ s.getLast? = some 'E' then
      some ((s.drop 3).dropLast)
    else if ('Z' :: 'N' :: []).isPrefixOf s ∧ s.getLast? = some 'E' then
      some ((s.drop 2).dropLast)
    else if ('_' :: '_' :: 'Z' :: 'N' :: []).isPrefixOf s ∧ s.getLast? = some 'E' then
      some ((s.drop 4).dropLast)
    else none
  match stripped with
  | none => false
  | some interior =>
    !interior.isEmpty && (interior.all (fun c => c.toNat < 128) && specInteriorOk interior)

/-- The element list of a parsed legacy interior: for each element, the
greedy digit run measures how many of the following characters make up the
element. -/
def elemsOf : Nat → List Char → List (List Char)
  | 0, _ => []
  | n + 1, inner =>
    let rest0 := inner.dropWhile isDigit10
    let i := val10 (inner.takeWhile isDigit10)
    rest0.take i :: elemsOf n (rest0.drop i)

/-- The leading-underscore elision of the legacy Display implementation. -/
def stripUnd (e : List Char) : List Char :=
  if ('_' :: '$' :: []).isPrefixOf e then e.drop 1 else e

/-- Join escaped elements with double colons; the flag says whether a
separator is due before the first element. -/
def renderTail (lead : Bool) : List (List Char) → List Char
  | [] => []
  | e :: es =>
    (if lead then "::".toList else []) ++ escapeElem (stripUnd e) ++ renderTail true es

/-- Hash element shape per the amended claim: the byte h followed by zero
or more ASCII hex digits. -/
def amendedHash (e : List Char) : Bool :=
  match e with
  | 'h' :: ds => ds.all isHexDigit16
  | _ => false

/-- Hash element shape exactly as the original claim states it: the byte h
followed by one or more ASCII hex digits. -/
def claimHashOneOrMore (e : List Char) : Bool :=
  match e with
  | 'h' :: d :: ds => isHexDigit16 d && ds.all isHexDigit16
  | _ => false

/-- Whether the last element of a list is an amended-shape hash. -/
def amendedHashLast (es : List (List Char)) : Bool :=
  match es.getLast? with
  | some e => amendedHash e
  | none => false

set_option maxRecDepth 4000

/-- C1, counterexample: demangling the v0 symbol _RMC0INtC8arrayvec8ArrayVechKj7b_E
in normal display mode prints the crate-root disambiguator bracket and a
colon-space type annotation, so the output differs from the one the claim
states for normal mode. -/
theorem c1_counterexample :
    demangleDisplayV0 "_RMC0INtC8arrayvec8ArrayVechKj7b_E" false 300
        = some "<arrayvec[0]::ArrayVec<u8, 123: usize>>" ∧
      some "<arrayvec[0]::ArrayVec<u8, 123: usize>>"
        ≠ (some "<arrayvec::ArrayVec<u8, 123usize>>" : Option String) := by
  constructor
  · rfl
  · decide

/-- C1, amended: demangling _RMC0INtC8arrayvec8ArrayVechKj7b_E prints
the body as angle brackets around arrayvec[0]::ArrayVec<u8, 123: usize>
in normal mode (the unsigned const argument prints its decimal value, a
colon, a space and the type name; the crate root prints its zero
disambiguator in brackets) and as angle brackets around
arrayvec::ArrayVec<u8, 123> in alternate mode (no disambiguator bracket,
no type annotation). -/
theorem c1_theorem :
    demangleDisplayV0 "_RMC0INtC8arrayvec8ArrayVechKj7b_E" false 300
        = some "<arrayvec[0]::ArrayVec<u8, 123: usize>>" ∧
      demangleDisplayV0 "_RMC0INtC8arrayvec8ArrayVechKj7b_E" true 300
        = some "<arrayvec::ArrayVec<u8, 123>>" := by
  constructor
  · rfl
  · rfl

/-- C2, counterexample: demangling _RNvC6_123foo3bar in normal mode prints
123foo[0]::bar (the absent disambiguator decodes to zero and normal mode
still prints it in brackets), not the bracket-free output the claim states
for normal mode. -/
theorem c2_counterexample :
    demangleDisplayV0 "_RNvC6_123foo3bar" false 300 = some "123foo[0]::bar" ∧
      some "123foo[0]::bar" ≠ (some "123foo::bar" : Option String) := by
  constructor
  · rfl
  · decide

/-- C2, amended: demangling _RNvC6_123foo3bar prints 123foo[0]::bar in
normal display mode and 123foo::bar in alternate display mode: the two
modes differ exactly in the bracketed hex disambiguator (zero here, since
the disambiguator is absent) after the crate root. -/
theorem c2_theorem :
    demangleDisplayV0 "_RNvC6_123foo3bar" false 300 = some "123foo[0]::bar" ∧
      demangleDisplayV0 "_RNvC6_123foo3bar" true 300 = some "123foo::bar" := by
  constructor
  · rfl
  · rfl

/-- C5, counterexample: in the Display run over the body of _RNvNvB0_1x1y,
a production fails (the output carries the invalid-syntax placeholder),
yet later productions print the real identifiers x and y rather than
question marks, and the run finishes with the parser in a non-error state:
the error arose while printing a backreference target and was discarded
when print_backref restored the saved parser. -/
theorem c5_counterexample :
    (v0DisplayRun "NvNvB0_1x1y".toList false 100).out
        = "\x7binvalid syntax\x7d::x::y" ∧
      (v0DisplayRun "NvNvB0_1x1y".toList false 100).parser.isOk = true := by
  constructor
  · rfl
  · rfl

/-- C6, counterexample: running the printer over the body C (as the dry
parse of the v0 symbol _RC does) executes one push_depth call and zero
pop_depth calls: the production aborts on the parse error before reaching
its pop_depth epilogue, so the two counts differ on this control-flow
path. -/
theorem c6_counterexample :
    (v0DisplayRun ['C'] false 10).pushes = 1 ∧
      (v0DisplayRun ['C'] false 10).pops = 0 ∧
      (v0DisplayRun ['C'] false 10).parserIsErr = true := by
  refine ⟨rfl, rfl, rfl⟩

/-- C3, counterexample: the legacy symbol _ZN3foo1hE is accepted with the
two elements foo and h; its last element is the single byte h, which is
not an h followed by one or more hex digits, yet alternate mode drops it
(printing foo) while normal mode prints foo::h — is_rust_hash accepts an
empty hex-digit run. -/
theorem c3_counterexample :
    legacyParse "_ZN3foo1hE".toList = some ("3foo1h".toList, 2) ∧
      legacyDisplay "_ZN3foo1hE" true = some "foo" ∧
      legacyDisplay "_ZN3foo1hE" false = some "foo::h" ∧
      claimHashOneOrMore ['h'] = false := by
  refine ⟨rfl, rfl, rfl, rfl⟩

/-- C9, counterexample: the string _ZNE satisfies the acceptance predicate
exactly as the claim states it (prefix _ZN, final E, empty ASCII interior
that is an empty sequence of elements), yet the legacy recognizer rejects
it, because the source requires the length to exceed 4. -/
theorem c9_counterexample :
    specLegacyAccepts "_ZNE".toList = true ∧ legacyParse "_ZNE".toList = none := by
  refine ⟨rfl, rfl⟩

/-- Parser::integer_62 moves only the cursor: the symbol and depth of the
resulting parser are unchanged. -/
theorem Parser.integer62_state (p : Parser) (i : Nat) (p2 : Parser)
    (h : p.integer62 = .ok (i, p2)) : p2.sym = p.sym ∧ p2.depth = p.depth := by
  unfold Parser.integer62 Parser.eat at h
  split at h
  · simp at h
    cases h.2; exact ⟨rfl, rfl⟩
  · simp only [Bool.false_eq_true, if_false] at h
    split at h
    · split at h
      · simp at h
        cases h.2; exact ⟨rfl, rfl⟩
      · exact absurd h (by simp)
    · exact absurd h (by simp)

/-- C4: when a backref is parsed (the cursor just past the B byte, so the
B byte sits at offset next - 1), the decoded target offset is compared
against that offset: a target at or beyond it is Invalid; a strictly
smaller target spawns a sub-parser at the target offset with the depth
incremented by one (through push_depth, which instead reports
RecursedTooDeep when the incremented depth exceeds the limit); and every
successful backref yields a sub-parser strictly before the B byte, so no
forward reference and no self reference ever succeeds. -/
theorem c4_theorem (p : Parser) (i : Nat) (p2 : Parser)
    (h : p.integer62 = .ok (i, p2)) :
    (p.next - 1 ≤ i → p.backref = .error .invalid) ∧
    (i < p.next - 1 → p.depth + 1 ≤ MAX_DEPTH →
      p.backref = .ok (⟨p.sym, i, p.depth + 1⟩, p2)) ∧
    (i < p.next - 1 → MAX_DEPTH < p.depth + 1 →
      p.backref = .error .recursedTooDeep) ∧
    (∀ np q, p.backref = .ok (np, q) → np.next < p.next - 1 ∧ np.depth = p.depth + 1) := by
  obtain ⟨hsym, hdep⟩ := Parser.integer62_state p i p2 h
  unfold Parser.backref Parser.backrefSpawn Parser.pushDepth
  rw [h]
  refine ⟨?_, ?_, ?_, ?_⟩
  · intro hle
    simp [hle]
  · intro hlt hd
    have h1 : ¬ (p.next - 1 ≤ i) := by omega
    have h2 : ¬ (MAX_DEPTH < p.depth + 1) := by omega
    simp [h1, hsym, hdep, h2]
  · intro hlt hd
    have h1 : ¬ (p.next - 1 ≤ i) := by omega
    simp [h1, hsym, hdep, hd]
  · intro np q hok
    by_cases hle : p.next - 1 ≤ i
    · simp [hle] at hok
    · by_cases hd2 : MAX_DEPTH < p2.depth + 1
      · simp [hle, hd2] at hok
      · simp [hle, hd2] at hok
        cases hok.1
        refine ⟨?_, ?_⟩
        · show i < p.next - 1
          omega
        · show p2.depth + 1 = p.depth + 1
          omega

/-- C4, witness: a concrete backward reference succeeds, spawning the
sub-parser at the target with depth one, and a concrete reference at the
offset of its own B byte fails with Invalid. -/
theorem c4_witness :
    (⟨"xxxB0_".toList, 4, 0⟩ : Parser).backref
        = .ok (⟨"xxxB0_".toList, 1, 1⟩, ⟨"xxxB0_".toList, 6, 0⟩) ∧
      (⟨"xxB1_".toList, 3, 0⟩ : Parser).backref = .error .invalid := by
  constructor
  · exact ( c4_theorem ⟨ "xxxB0_".toList, 4, 0⟩ 1 ⟨ "xxxB0_".toList, 6, 0⟩ (by rfl)).2.1
      (by decide) (by decide)
  · exact ( c4_theorem ⟨ "xxB1_".toList, 3, 0⟩ 2 ⟨ "xxB1_".toList, 5, 0⟩ (by rfl)).1
      (by decide)
/-- Base-62 accumulation value of a digit run from a starting value. -/
def val62From (x : Nat) (ds : List Char) : Nat :=
  ds.foldl (fun a c => a * 62 + (int62Digit c).getD 0) x

/-- Base-62 value of a digit run. -/
def val62 (ds : List Char) : Nat := val62From 0 ds

theorem val62From_ge (ds : List Char) : ∀ x : Nat, x ≤ val62From x ds := by
  induction ds with
  | nil => intro x; exact Nat.le_refl x
  | cons c cs ih =>
    intro x
    calc x ≤ x * 62 + (int62Digit c).getD 0 := by
          have : x ≤ x * 62 := Nat.le_mul_of_pos_right x (by omega)
          omega
      _ ≤ val62From (x * 62 + (int62Digit c).getD 0) cs := ih _

theorem val62From_cons (x : Nat) (c : Char) (cs : List Char) :
    val62From x (c :: cs) = val62From (x * 62 + (int62Digit c).getD 0) cs := rfl

theorem integer62Loop_spec (ds : List Char) :
    ∀ (x : Nat) (rest : List Char), (∀ c ∈ ds, (int62Digit c).isSome) → x < U64LIMIT →
    (val62From x ds < U64LIMIT →
        integer62Loop (ds ++ '_' :: rest) x = .ok (val62From x ds, ds.length + 1)) ∧
    (U64LIMIT ≤ val62From x ds →
        integer62Loop (ds ++ '_' :: rest) x = .error .invalid) := by
  induction ds with
  | nil =>
    intro x rest _ hx
    refine ⟨fun _ => ?_, fun hge => ?_⟩
    · simp [integer62Loop, val62From]
    · exact absurd hge (by simp [val62From]; omega)
  | cons c cs ih =>
    intro x rest hdig hx
    have hc : (int62Digit c).isSome := hdig c (by simp)
    obtain ⟨d, hd⟩ := Option.isSome_iff_exists.mp hc
    have hcne : c ≠ '_' := by
      intro he
      rw [he] at hd
      simp [int62Digit] at hd
    have hgetD : (int62Digit c).getD 0 = d := by rw [hd]; rfl
    have hrec := ih (x * 62 + d) rest (fun e he => hdig e (by simp [he]))
    rw [val62From_cons, hgetD]
    have hmono : x * 62 + d ≤ val62From (x * 62 + d) cs := val62From_ge cs _
    constructor
    · intro hlt
      have hck1 : x * 62 < U64LIMIT := by omega
      have hck2 : x * 62 + d < U64LIMIT := by omega
      have hres := (hrec (by omega)).1 hlt
      simp only [List.cons_append, integer62Loop, hcne, if_false, hd]
      simp [hck1, hck2, hres]
    · intro hge
      by_cases hck : x * 62 < U64LIMIT ∧ x * 62 + d < U64LIMIT
      · have hres := (hrec (by omega)).2 hge
        simp only [List.cons_append, integer62Loop, hcne, if_false, hd]
        simp [hck.1, hck.2, hres]
      · simp only [List.cons_append, integer62Loop, hcne, if_false, hd]
        simp [hcne, hck]

/-- Decimal accumulation value of a digit run from a starting value. -/
def val10From (x : Nat) (ds : List Char) : Nat :=
  ds.foldl (fun a c => a * 10 + digit10Val c) x

theorem val10From_ge (ds : List Char) : ∀ x : Nat, x ≤ val10From x ds := by
  induction ds with
  | nil => intro x; exact Nat.le_refl x
  | cons c cs ih =>
    intro x
    calc x ≤ x * 10 + digit10Val c := by
          have : x ≤ x * 10 := Nat.le_mul_of_pos_right x (by omega)
          omega
      _ ≤ val10From (x * 10 + digit10Val c) cs := ih _

theorem accDigitsFrom_spec (ds : List Char) :
    ∀ x : Nat, x < U64LIMIT →
      accDigitsFrom x ds
        = if val10From x ds < U64LIMIT then some (val10From x ds) else none := by
  induction ds with
  | nil =>
    intro x hx
    simp [accDigitsFrom, val10From, hx]
  | cons c cs ih =>
    intro x hx
    have hmono : x * 10 + digit10Val c ≤ val10From (x * 10 + digit10Val c) cs :=
      val10From_ge cs _
    show (if x * 10 < U64LIMIT ∧ x * 10 + digit10Val c < U64LIMIT then
        accDigitsFrom (x * 10 + digit10Val c) cs else none)
      = if val10From x (c :: cs) < U64LIMIT then some (val10From x (c :: cs)) else none
    have hv : val10From x (c :: cs) = val10From (x * 10 + digit10Val c) cs := rfl
    by_cases hck : x * 10 < U64LIMIT ∧ x * 10 + digit10Val c < U64LIMIT
    · rw [if_pos hck, ih _ hck.2, hv]
    · rw [if_neg hck, hv]
      rw [if_neg (by omega)]

/-- C8: all length and integer accumulation is overflow-checked.  First,
Parser::integer_62 returns 0 when the next byte is an underscore.  Second,
when the remaining input is a non-empty base-62 digit run followed by an
underscore, integer_62 returns the accumulated value plus one and consumes
the run and the underscore — unless a checked multiply, add, or the final
plus-one overflows u64, in which case it returns Invalid.  Third, the
decimal element-length accumulation of the legacy decoder returns its
value exactly when that value fits in usize and errors instead of wrapping
otherwise. -/
theorem c8_theorem :
    (∀ p : Parser, p.peek = some '_' →
        p.integer62 = .ok (0, { p with next := p.next + 1 })) ∧
    (∀ (p : Parser) (ds rest : List Char),
        p.sym.drop p.next = ds ++ '_' :: rest → ds ≠ [] →
        (∀ c ∈ ds, (int62Digit c).isSome) →
        (val62 ds + 1 < U64LIMIT →
          p.integer62 = .ok (val62 ds + 1, { p with next := p.next + (ds.length + 1) })) ∧
        (U64LIMIT ≤ val62 ds + 1 → p.integer62 = .error .invalid)) ∧
    (∀ (x : Nat) (ds : List Char), x < U64LIMIT →
        accDigitsFrom x ds
          = if val10From x ds < U64LIMIT then some (val10From x ds) else none) := by
  refine ⟨?_, ?_, fun x ds hx => accDigitsFrom_spec ds x hx⟩
  · intro p hp
    unfold Parser.integer62 Parser.eat
    simp [hp]
  · intro p ds rest hdrop hne hdig
    have hhead : p.peek = (ds ++ '_' :: rest).head? := by
      rw [Parser.peek, List.get?_eq_getElem?, ← List.head?_drop, hdrop]
    have hne2 : p.peek ≠ some '_' := by
      rw [hhead]
      obtain ⟨c, cs, rfl⟩ := List.exists_cons_of_ne_nil hne
      have hc : (int62Digit c).isSome := hdig c (by simp)
      simp only [List.cons_append, List.head?_cons]
      intro he
      rw [Option.some.injEq] at he
      rw [he] at hc
      simp [int62Digit] at hc
    have hspec := integer62Loop_spec ds 0 rest hdig (by unfold U64LIMIT; omega)
    have hval : val62From 0 ds = val62 ds := rfl
    constructor
    · intro hlt
      unfold Parser.integer62 Parser.eat
      rw [if_neg hne2]
      simp only [Bool.false_eq_true, if_false]
      rw [hdrop, hspec.1 (by omega), hval]
      simp [hlt]
    · intro hge
      unfold Parser.integer62 Parser.eat
      rw [if_neg hne2]
      simp only [Bool.false_eq_true, if_false]
      by_cases hv : val62 ds < U64LIMIT
      · rw [hdrop, hspec.1 (by omega), hval]
        simp
        omega
      · rw [hdrop, hspec.2 (by omega)]

/-- C8, witness: with the remaining input 7b_ the digit run 7b decodes to
445 and integer_62 returns 446; a leading underscore returns 0; and the
legacy accumulation of the digit run 12 from 0 returns 12. -/
theorem c8_witness :
    (⟨"x7b_".toList, 1, 0⟩ : Parser).integer62 = .ok (446, ⟨"x7b_".toList, 4, 0⟩) ∧
      (⟨"_".toList, 0, 0⟩ : Parser).integer62 = .ok (0, ⟨"_".toList, 1, 0⟩) ∧
      accDigitsFrom 0 ['1', '2'] = some 12 := by
  refine ⟨?_, ?_, ?_⟩
  · have h := (c8_theorem.2.1 ⟨"x7b_".toList, 1, 0⟩ ['7', 'b'] [] (by rfl) (by decide)
      (by decide)).1 (by decide)
    rw [show val62 ['7', 'b'] + 1 = 446 from by decide] at h
    simpa using h
  · exact c8_theorem.1 ⟨"_".toList, 0, 0⟩ (by rfl)
  · exact (c8_theorem.2.2 0 ['1', '2'] (by decide)).trans (by decide)
/-- Printer::print never touches the parser. -/
theorem PState.print_parser (st : PState) (s : String) :
    (st.print s).parser = st.parser := by
  unfold PState.print
  split <;> rfl

theorem insertAt_length (l : List Char) : ∀ (i : Nat) (c : Char),
    (insertAt l i c).length = l.length + 1 := by
  induction l with
  | nil =>
    intro i c
    cases i <;> rfl
  | cons x xs ih =>
    intro i c
    cases i with
    | zero => rfl
    | succ j => simp [insertAt, ih j c]

theorem smallInsert_cases (out : List Char) (i : Nat) (c : Char) :
    (SMALL_PUNYCODE_LEN ≤ out.length ∧ smallInsert out i c = .error .fail) ∨
      (out.length < SMALL_PUNYCODE_LEN ∧ out.length < i ∧ smallInsert out i c = .error .oob) ∨
      (out.length < SMALL_PUNYCODE_LEN ∧ i ≤ out.length ∧
        smallInsert out i c = .ok (insertAt out i c)) := by
  unfold smallInsert
  by_cases h1 : SMALL_PUNYCODE_LEN ≤ out.length
  · exact Or.inl ⟨h1, by rw [if_pos h1]⟩
  · by_cases h2 : out.length < i
    · exact Or.inr (Or.inl ⟨by omega, h2, by rw [if_neg h1, if_pos h2]⟩)
    · exact Or.inr (Or.inr ⟨by omega, by omega, by rw [if_neg h1, if_neg h2]⟩)

theorem insertAsciiLoop_spec (cs : List Char) :
    ∀ (out : List Char) (len : Nat), len = out.length → out.length ≤ SMALL_PUNYCODE_LEN →
      insertAsciiLoop out cs len ≠ .error .oob ∧
      (∀ out2 len2, insertAsciiLoop out cs len = .ok (out2, len2) →
        len2 = out2.length ∧ out2.length ≤ SMALL_PUNYCODE_LEN) := by
  induction cs with
  | nil =>
    intro out len hlen hle
    refine ⟨fun h => by simp [insertAsciiLoop] at h, fun out2 len2 h => ?_⟩
    simp [insertAsciiLoop] at h
    cases h.1; cases h.2
    exact ⟨hlen, hle⟩
  | cons c cs ih =>
    intro out len hlen hle
    rcases smallInsert_cases out len c with ⟨hfull, heq⟩ | ⟨_, hlt, _⟩ | ⟨hsz, _, heq⟩
    · constructor
      · intro h
        simp [insertAsciiLoop, heq] at h
      · intro out2 len2 h
        simp [insertAsciiLoop, heq] at h
    · omega
    · have hrec := ih (insertAt out len c) (len + 1)
        (by rw [insertAt_length, hlen]) (by rw [insertAt_length]; omega)
      constructor
      · intro h
        exact hrec.1 (by simpa [insertAsciiLoop, heq] using h)
      · intro out2 len2 h
        exact hrec.2 out2 len2 (by simpa [insertAsciiLoop, heq] using h)

theorem punyOuter_spec (fuel : Nat) :
    ∀ (bytes out : List Char) (len i n bias damp : Nat),
      len = out.length → out.length ≤ SMALL_PUNYCODE_LEN →
      punyOuter fuel bytes out len i n bias damp ≠ .error .oob ∧
      (∀ out2, punyOuter fuel bytes out len i n bias damp = .ok out2 →
        out2.length ≤ SMALL_PUNYCODE_LEN) := by
  induction fuel with
  | zero =>
    intro bytes out len i n bias damp hlen hle
    exact ⟨by simp [punyOuter], fun out2 h => by simp [punyOuter] at h⟩
  | succ fuel ih =>
    intro bytes out len i n bias damp hlen hle
    unfold punyOuter
    match hdl : punyDeltaLoop (bytes.length + 1) bytes 0 1 0 bias with
    | .error _ =>
      exact ⟨by simp, fun out2 h => by simp at h⟩
    | .ok (delta, rest) =>
      simp only []
      by_cases h1 : i + delta < U64LIMIT
      · rw [if_pos h1]
        by_cases h2 : n + (i + delta) / (len + 1) < U64LIMIT
        · rw [if_pos h2]
          by_cases h3 : n + (i + delta) / (len + 1) < 2 ^ 32 ∧
              (n + (i + delta) / (len + 1) < 55296 ∨
                (57343 < n + (i + delta) / (len + 1) ∧
                  n + (i + delta) / (len + 1) < 1114112))
          · rw [if_pos h3]
            have hidx : (i + delta) % (len + 1) ≤ out.length := by
              have := Nat.mod_lt (i + delta) (y := len + 1) (by omega)
              omega
            rcases smallInsert_cases out ((i + delta) % (len + 1))
                (Char.ofNat (n + (i + delta) / (len + 1))) with
              ⟨hfull, heq⟩ | ⟨_, hlt, _⟩ | ⟨hsz, _, heq⟩
            · rw [heq]
              exact ⟨by simp, fun out2 h => by simp at h⟩
            · omega
            · rw [heq]
              simp only []
              have hlen2 : (insertAt out ((i + delta) % (len + 1))
                  (Char.ofNat (n + (i + delta) / (len + 1)))).length = out.length + 1 :=
                insertAt_length _ _ _
              by_cases h4 : rest = []
              · rw [if_pos h4]
                exact ⟨by simp, fun out2 h => by
                  rw [Except.ok.injEq] at h
                  rw [← h, hlen2]
                  omega⟩
              · rw [if_neg h4]
                exact ih rest _ (len + 1) _ _ _ 2 (by rw [hlen2, hlen]) (by omega)
          · rw [if_neg h3]
            exact ⟨by simp, fun out2 h => by simp at h⟩
        · rw [if_neg h2]
          exact ⟨by simp, fun out2 h => by simp at h⟩
      · rw [if_neg h1]
        exact ⟨by simp, fun out2 h => by simp at h⟩

/-- C10: the small punycode decoder never violates the bounds of its
128-character stack buffer: every insertion happens at an index at most
the current output length while the length is still below 128 (the oob
outcome, which covers every possible out-of-bounds access of the
shift-and-insert loop, is unreachable for every input), and the decoded
output never exceeds 128 characters. -/
theorem c10_theorem (id : Ident) :
    punycodeDecodeSmall id ≠ .error .oob ∧
      (∀ out, punycodeDecodeSmall id = .ok out → out.length ≤ SMALL_PUNYCODE_LEN) := by
  unfold punycodeDecodeSmall
  by_cases hp : id.punycode = []
  · rw [if_pos hp]
    exact ⟨by simp, fun out h => by simp at h⟩
  · rw [if_neg hp]
    have hascii := insertAsciiLoop_spec id.ascii [] 0 rfl (by simp [SMALL_PUNYCODE_LEN])
    match hal : insertAsciiLoop [] id.ascii 0 with
    | .error e =>
      rcases e with _ | _
      · exact ⟨by simp, fun out h => by simp at h⟩
      · rw [hal] at hascii
        exact absurd rfl hascii.1
    | .ok (out, len) =>
      rw [hal] at hascii
      obtain ⟨hlen, hle⟩ := hascii.2 out len rfl
      exact punyOuter_spec (id.punycode.length + 1) id.punycode out len 0 128 72 700
        hlen hle

/-- C10, witness: a concrete decode produces one character, within the
buffer bound, and a concrete failing decode does not report an
out-of-bounds insertion. -/
theorem c10_witness :
    ([Char.ofNat 128].length ≤ SMALL_PUNYCODE_LEN) ∧
      punycodeDecodeSmall ⟨['x'], []⟩ ≠ .error .oob := by
  constructor
  · exact (c10_theorem ⟨[], ['a']⟩).2 [Char.ofNat 128] (by rfl)
  · exact ( c10_theorem ⟨ ['x'], []⟩).1

/-- C7: an identifier with a non-empty punycode part whose small punycode
decode fails (the decoded length would exceed the 128-character buffer, a
checked arithmetic step overflows, or the codepoint is not a valid scalar
value) displays as the punycode literal, with the ASCII part and a dash
exactly when the ASCII part is non-empty; and printing an identifier never
changes the printer parser, so the fallback cannot poison the enclosing
parse. -/
theorem c7_theorem (id : Ident) (hpuny : id.punycode ≠ []) :
    (∀ e, punycodeDecodeSmall id = .error e →
      identDisplay id = "punycode\x7b"
        ++ (if id.ascii ≠ [] then String.mk id.ascii ++ "-" else "")
        ++ String.mk id.punycode ++ "\x7d") ∧
    (∀ st : PState, (st.print (identDisplay id)).parser = st.parser) := by
  constructor
  · intro e he
    unfold identDisplay
    rw [he]
    simp [hpuny]
  · intro st
    exact PState.print_parser st (identDisplay id)

/-- C7, witness: an ASCII part of 129 characters overflows the buffer, so
the identifier displays as the punycode literal, and printing it leaves a
concrete parser untouched. -/
theorem c7_witness :
    identDisplay ⟨List.replicate 129 'a', ['a']⟩
        = "punycode\x7b"
          ++ (if List.replicate 129 'a' ≠ [] then String.mk (List.replicate 129 'a') ++ "-"
              else "")
          ++ String.mk ['a'] ++ "\x7d" ∧
      ((initPState ['p'] false true).print
          (identDisplay ⟨List.replicate 129 'a', ['a']⟩)).parser
        = (initPState ['p'] false true).parser := by
  constructor
  · exact (c7_theorem ⟨List.replicate 129 'a', ['a']⟩ (by decide)).1 .fail (by rfl)
  · exact (c7_theorem ⟨List.replicate 129 'a', ['a']⟩ (by decide)).2 _
/-- C5, amended: the parse macro layer makes errors sticky within the
current parser.  A production whose parser has already errored prints
exactly a question mark and leaves the state otherwise unchanged (shown
for print_path, print_type and print_const); a parser method failing on a
not-yet-errored parser prints exactly the error message once and puts the
parser into the error state; and an error raised while printing a
backreference target is confined to the backref: print_backref restores
the parser it saved before running the closure, so productions after the
backref resume from the saved parser. -/
theorem c5_theorem (fuel : Nat) (inValue : Bool) (e : ParseError) (st : PState)
    (h : st.parser = .error e) :
    printPath (fuel + 1) inValue st = st.print "?" ∧
    printType (fuel + 1) st = st.print "?" ∧
    printConst (fuel + 1) st = st.print "?" ∧
    (∀ (α : Type) (m : Parser → Except ParseError (α × Parser)) (st2 : PState) (p : Parser)
        (e2 : ParseError), st2.parser = .ok p → m p = .error e2 →
      parseWith m st2 = (none, { st2.print e2.message with parser := .error e2 })) ∧
    (∀ (f : PState → PState) (st2 : PState) (bp : Parser) (st3 : PState),
      st2.parseBackref = (some bp, st3) → st3.sink = true →
      (printBackref f st2).parser = st3.parser) := by
  refine ⟨?_, ?_, ?_, ?_, ?_⟩
  · show (printerGo (fuel + 1) (.path inValue) st).st = st.print "?"
    simp [printerGo, withPushScope, PState.parsePushDepth, h, PRes.ofSt]
  · show (printerGo (fuel + 1) .type st).st = st.print "?"
    simp [printerGo, withParse, parseWith, h, PRes.ofSt]
  · show (printerGo (fuel + 1) .const st).st = st.print "?"
    simp [printerGo, withPushScope, PState.parsePushDepth, h, PRes.ofSt]
  · intro α m st2 p e2 hp hm
    unfold parseWith
    rw [hp]
    dsimp only
    rw [hm]
  · intro f st2 bp st3 hpb hsink
    unfold printBackref
    rw [hpb]
    simp [hsink]

/-- C5, witness: on a concrete errored printer, print_path and print_type
print exactly a question mark; the parse layer at end of input prints the
invalid-syntax message and marks the error; and a concrete print_backref
run restores the saved parser. -/
theorem c5_witness :
    printPath 1 true ⟨.error .invalid, "", true, false, 0, 0, 0⟩
        = PState.print ⟨.error .invalid, "", true, false, 0, 0, 0⟩ "?" ∧
      printType 1 ⟨.error .invalid, "", true, false, 0, 0, 0⟩
        = PState.print ⟨.error .invalid, "", true, false, 0, 0, 0⟩ "?" ∧
      parseWith Parser.nextByte (initPState [] false true)
        = (none, { (initPState [] false true).print ParseError.invalid.message with
            parser := .error ParseError.invalid }) ∧
      (printBackref id ⟨.ok ⟨"xxxB0_".toList, 4, 0⟩, "", true, false, 0, 0, 0⟩).parser
        = (⟨.ok ⟨"xxxB0_".toList, 6, 0⟩, "", true, false, 0, 1, 0⟩ : PState).parser := by
  refine ⟨?_, ?_, ?_, ?_⟩
  · exact (c5_theorem 0 true .invalid _ rfl).1
  · exact (c5_theorem 0 true .invalid _ rfl).2.1
  · exact (c5_theorem 0 true .invalid ⟨.error .invalid, "", true, false, 0, 0, 0⟩
      rfl).2.2.2.1 Char Parser.nextByte (initPState [] false true)
      ⟨[], 0, 0⟩ .invalid rfl rfl
  · exact (c5_theorem 0 true .invalid ⟨.error .invalid, "", true, false, 0, 0, 0⟩
      rfl).2.2.2.2 id ⟨.ok ⟨"xxxB0_".toList, 4, 0⟩, "", true, false, 0, 0, 0⟩
      ⟨"xxxB0_".toList, 1, 1⟩ ⟨.ok ⟨"xxxB0_".toList, 6, 0⟩, "", true, false, 0, 1, 0⟩
      (by rfl) rfl
/-- Depth preservation for a printer step: whenever the step ends with an
un-errored parser, the parser at entry was un-errored with the same
depth. -/
def DPres (f : PState → PState) : Prop :=
  ∀ st p2, (f st).parser = .ok p2 → ∃ p, st.parser = .ok p ∧ p2.depth = p.depth

/-- Depth preservation for a parser method. -/
def DepthPres {α : Type} (m : Parser → Except ParseError (α × Parser)) : Prop :=
  ∀ p x p2, m p = .ok (x, p2) → p2.depth = p.depth

theorem dpres_parser_eq {f : PState → PState} (h : ∀ s, (f s).parser = s.parser) :
    DPres f := by
  intro st p2 h2
  exact ⟨p2, by rw [← h st]; exact h2, rfl⟩

theorem dpres_comp {f g : PState → PState} (hf : DPres f) (hg : DPres g) :
    DPres (fun s => g (f s)) := by
  intro st p2 h
  obtain ⟨q, hq, hdq⟩ := hg (f st) p2 h
  obtain ⟨p, hp, hdp⟩ := hf st q hq
  exact ⟨p, hp, by omega⟩

theorem fuelOut_not_ok (st : PState) (p : Parser) : st.fuelOut.parser ≠ .ok p := by
  unfold PState.fuelOut
  split
  · simp
  · rename_i e heq
    rw [heq]
    simp

theorem eat_depth (p : Parser) (b : Char) : (p.eat b).2.depth = p.depth := by
  unfold Parser.eat
  split <;> rfl

theorem eat_sym (p : Parser) (b : Char) : (p.eat b).2.sym = p.sym := by
  unfold Parser.eat
  split <;> rfl

theorem eatP_err (st : PState) (b : Char) (e : ParseError) (h : st.parser = .error e) :
    st.eatP b = (false, st) := by
  unfold PState.eatP
  rw [h]

theorem eatP_dpres (st : PState) (b : Char) (p2 : Parser)
    (h : ((st.eatP b).2).parser = .ok p2) : ∃ p, st.parser = .ok p ∧ p2.depth = p.depth := by
  unfold PState.eatP at h
  match hst : st.parser with
  | .ok p =>
    rw [hst] at h
    simp at h
    exact ⟨p, rfl, by rw [← h]; exact eat_depth p b⟩
  | .error e =>
    rw [hst] at h
    simp at h
    rw [hst] at h
    exact absurd h (by simp)

theorem dpres_invalidMark : DPres (fun s => s.invalidMark) := by
  intro st p2 h
  unfold PState.invalidMark at h
  simp at h

theorem depthPres_nextByte : DepthPres Parser.nextByte := by
  intro p x p2 h
  unfold Parser.nextByte at h
  match hp : p.peek with
  | some b => rw [hp] at h; simp at h; rw [← h.2]
  | none => rw [hp] at h; simp at h

theorem depthPres_hexNibbles : DepthPres Parser.hexNibbles := by
  intro p x p2 h
  unfold Parser.hexNibbles at h
  split at h
  · simp at h; rw [← h.2]
  · simp at h

theorem depthPres_integer62 : DepthPres Parser.integer62 := by
  intro p x p2 h
  exact (Parser.integer62_state p x p2 h).2

theorem depthPres_optInteger62 (tag : Char) :
    DepthPres (fun p => p.optInteger62 tag) := by
  intro p x p2 h
  unfold Parser.optInteger62 at h
  try dsimp only at h
  split at h
  · simp at h; rw [← h.2, eat_depth]
  · split at h
    · split at h
      · simp at h
        rename_i y q hq _
        rw [← h.2]
        rw [depthPres_integer62 _ y q hq, eat_depth]
      · simp at h
    · simp at h

theorem depthPres_disambiguator : DepthPres Parser.disambiguator :=
  fun p x p2 h => depthPres_optInteger62 's' p x p2 h

theorem depthPres_namespaceTag : DepthPres Parser.namespaceTag := by
  intro p x p2 h
  unfold Parser.namespaceTag at h
  split at h
  · rename_i c q hq
    split at h
    · simp at h
      rw [← h.2, depthPres_nextByte p c q hq]
    · split at h
      · simp at h
        rw [← h.2, depthPres_nextByte p c q hq]
      · simp at h
  · simp at h

theorem depthPres_digit10 : DepthPres Parser.digit10 := by
  intro q y q2 hq
  unfold Parser.digit10 at hq
  split at hq
  · split at hq
    · simp at hq; rw [← hq.2]
    · simp at hq
  · simp at hq

theorem depthPres_ident : DepthPres Parser.ident := by
  intro p x p2 h
  unfold Parser.ident at h
  try dsimp only at h
  split at h
  · exact absurd h (by simp)
  · rename_i l0 p1 hp1
    have hd1 : p1.depth = p.depth := by
      rw [depthPres_digit10 _ _ _ hp1, eat_depth]
    split at h
    · exact absurd h (by simp)
    · rename_i len k hlen
      split at h
      · split at h
        · exact absurd h (by simp)
        · split at h
          · split at h
            · split at h
              · exact absurd h (by simp)
              · rw [Except.ok.injEq, Prod.mk.injEq] at h
                rw [← h.2]
                simp [eat_depth, hd1]
            · split at h
              · exact absurd h (by simp)
              · rw [Except.ok.injEq, Prod.mk.injEq] at h
                rw [← h.2]
                simp [eat_depth, hd1]
          · rw [Except.ok.injEq, Prod.mk.injEq] at h
            rw [← h.2]
            simp [eat_depth, hd1]
      · exact absurd h (by simp)

theorem dpres_withParse {α : Type} (m : Parser → Except ParseError (α × Parser))
    (k : α → PState → PState) (hm : DepthPres m) (hk : ∀ x, DPres (k x)) :
    DPres (withParse m k) := by
  intro st p2 h
  unfold withParse parseWith at h
  match hst : st.parser with
  | .error e =>
    rw [hst] at h
    try dsimp only at h
    rw [PState.print_parser, hst] at h
    exact absurd h (by simp)
  | .ok p =>
    rw [hst] at h
    try dsimp only at h
    match hmp : m p with
    | .error e =>
      rw [hmp] at h
      try dsimp only at h
      exact absurd h (by simp)
    | .ok (x, q) =>
      rw [hmp] at h
      try dsimp only at h
      obtain ⟨r, hr, hdr⟩ := hk x _ p2 h
      simp at hr
      refine ⟨p, rfl, ?_⟩
      rw [hdr, ← hr, hm p x q hmp]

theorem popDepthP_ok (s : PState) (p2 : Parser) (h : (s.popDepthP).parser = .ok p2) :
    ∃ q, s.parser = .ok q ∧ p2 = q.popDepth := by
  unfold PState.popDepthP at h
  split at h
  · rename_i q heq
    simp at h
    exact ⟨q, heq, h.symm⟩
  · rename_i e heq
    rw [heq] at h
    exact absurd h (by simp)

theorem dpres_pushScope_pop (g : PState → PState) (hg : DPres g) :
    DPres (fun st => withPushScope (fun s => (g s).popDepthP) st) := by
  intro st p2 h
  try dsimp only at h
  unfold withPushScope PState.parsePushDepth at h
  rcases hst : st.parser with e | p
  · rw [hst] at h
    try dsimp only at h
    rw [PState.print_parser, hst] at h
    exact absurd h (by simp)
  · rw [hst] at h
    unfold Parser.pushDepth at h
    try dsimp only at h
    by_cases hd : MAX_DEPTH < p.depth + 1
    · rw [if_pos hd] at h
      try dsimp only at h
      exact absurd h (by simp)
    · rw [if_neg hd] at h
      try dsimp only at h
      obtain ⟨q, hq, hpq⟩ := popDepthP_ok _ p2 h
      obtain ⟨r, hr, hdr⟩ := hg _ q hq
      simp at hr
      have hrd := congrArg Parser.depth hr
      simp at hrd
      refine ⟨p, rfl, ?_⟩
      rw [hpq]
      unfold Parser.popDepth
      simp
      omega

theorem backrefSpawn_depth (p np p2 : Parser) (h : p.backrefSpawn = .ok (np, p2)) :
    p2.depth = p.depth ∧ np.depth = p.depth := by
  unfold Parser.backrefSpawn at h
  split at h
  · exact absurd h (by simp)
  · rename_i i q hq
    try dsimp only at h
    split at h
    · exact absurd h (by simp)
    · rw [Except.ok.injEq, Prod.mk.injEq] at h
      have h62 := (Parser.integer62_state p i q hq).2
      constructor
      · rw [← h.2, h62]
      · rw [← h.1]
        simp [h62]

theorem dpres_printBackref (f : PState → PState) : DPres (printBackref f) := by
  intro st p2 h
  unfold printBackref PState.parseBackref at h
  match hst : st.parser with
  | .error e =>
    rw [hst] at h
    try dsimp only at h
    rw [PState.print_parser, hst] at h
    exact absurd h (by simp)
  | .ok p =>
    rw [hst] at h
    try dsimp only at h
    match hbs : p.backrefSpawn with
    | .error e =>
      rw [hbs] at h
      try dsimp only at h
      exact absurd h (by simp)
    | .ok (np, q) =>
      rw [hbs] at h
      try dsimp only at h
      unfold Parser.pushDepth at h
      by_cases hd : MAX_DEPTH < np.depth + 1
      · rw [if_pos hd] at h
        try dsimp only at h
        exact absurd h (by simp)
      · rw [if_neg hd] at h
        try dsimp only at h
        split at h
        · simp at h
          refine ⟨p, rfl, ?_⟩
          rw [← h, (backrefSpawn_depth p np q hbs).1]
        · simp at h
          refine ⟨p, rfl, ?_⟩
          rw [← h, (backrefSpawn_depth p np q hbs).1]

theorem dpres_printBackrefOpen (f : PState → Bool × PState) :
    ∀ st p2, ((printBackrefOpen f st).2).parser = .ok p2 →
      ∃ p, st.parser = .ok p ∧ p2.depth = p.depth := by
  intro st p2 h
  unfold printBackrefOpen PState.parseBackref at h
  match hst : st.parser with
  | .error e =>
    rw [hst] at h
    try dsimp only at h
    rw [PState.print_parser, hst] at h
    exact absurd h (by simp)
  | .ok p =>
    rw [hst] at h
    try dsimp only at h
    match hbs : p.backrefSpawn with
    | .error e =>
      rw [hbs] at h
      try dsimp only at h
      exact absurd h (by simp)
    | .ok (np, q) =>
      rw [hbs] at h
      try dsimp only at h
      unfold Parser.pushDepth at h
      by_cases hd : MAX_DEPTH < np.depth + 1
      · rw [if_pos hd] at h
        try dsimp only at h
        exact absurd h (by simp)
      · rw [if_neg hd] at h
        try dsimp only at h
        split at h
        · simp at h
          refine ⟨p, rfl, ?_⟩
          rw [← h, (backrefSpawn_depth p np q hbs).1]
        · simp at h
          refine ⟨p, rfl, ?_⟩
          rw [← h, (backrefSpawn_depth p np q hbs).1]

theorem dpres_skipping (f : PState → PState) (hf : DPres f) :
    DPres (skippingPrinting f) := by
  intro st p2 h
  unfold skippingPrinting at h
  try dsimp only at h
  obtain ⟨p, hp, hd⟩ := hf _ p2 h
  simp at hp
  exact ⟨p, hp, hd⟩

theorem dpres_printLifetimeFromIndex (lt : Nat) :
    DPres (fun s => printLifetimeFromIndex s lt) := by
  intro st p2 h
  unfold printLifetimeFromIndex at h
  try dsimp only at h
  split at h
  · exact ⟨p2, h, rfl⟩
  · split at h
    · rw [PState.print_parser, PState.print_parser] at h
      exact ⟨p2, h, rfl⟩
    · split at h
      · split at h
        · rw [PState.print_parser, PState.print_parser] at h
          exact ⟨p2, h, rfl⟩
        · rw [PState.print_parser, PState.print_parser, PState.print_parser] at h
          exact ⟨p2, h, rfl⟩
      · exact absurd h (by unfold PState.invalidMark; simp)

theorem dpres_printBinderLifetimes (n : Nat) :
    ∀ i, DPres (fun s => printBinderLifetimes s n i) := by
  induction n with
  | zero =>
    intro i st p2 h
    exact ⟨p2, h, rfl⟩
  | succ m ih =>
    intro i st p2 h
    unfold printBinderLifetimes at h
    try dsimp only at h
    obtain ⟨q, hq, hdq⟩ := ih (i + 1) _ p2 h
    obtain ⟨r, hr, hdr⟩ := dpres_printLifetimeFromIndex 1 _ q hq
    simp at hr
    split at hr
    · rw [PState.print_parser] at hr
      exact ⟨r, hr, by omega⟩
    · exact ⟨r, hr, by omega⟩

theorem dpres_inBinder (f : PState → PState) (hf : DPres f) : DPres (inBinder f) := by
  intro st p2 h
  unfold inBinder parseWith at h
  rcases hst : st.parser with e | p
  · rw [hst] at h
    try dsimp only at h
    rw [PState.print_parser, hst] at h
    exact absurd h (by simp)
  · rw [hst] at h
    try dsimp only at h
    rcases hm : p.optInteger62 'G' with e | ⟨bound, q⟩
    · rw [hm] at h
      try dsimp only at h
      exact absurd h (by simp)
    · rw [hm] at h
      try dsimp only at h
      have hqd : q.depth = p.depth := depthPres_optInteger62 'G' p bound q hm
      split at h
      · obtain ⟨r, hr, hdr⟩ := hf _ p2 h
        have hqr : q = r := Except.ok.inj hr
        refine ⟨p, rfl, ?_⟩
        rw [hdr, ← hqr, hqd]
      · try dsimp only at h
        obtain ⟨r, hr, hdr⟩ := hf _ p2 h
        split at hr
        · rw [PState.print_parser] at hr
          obtain ⟨r2, hr2, hdr2⟩ := dpres_printBinderLifetimes bound 0 _ r hr
          rw [PState.print_parser] at hr2
          have hqr : q = r2 := Except.ok.inj hr2
          refine ⟨p, rfl, ?_⟩
          rw [hdr, hdr2, ← hqr, hqd]
        · have hqr : q = r := Except.ok.inj hr
          refine ⟨p, rfl, ?_⟩
          rw [hdr, ← hqr, hqd]

theorem dpres_printConstUint : DPres printConstUint := by
  unfold printConstUint
  refine dpres_withParse _ _ depthPres_hexNibbles ?_
  intro hex
  apply dpres_parser_eq
  intro s
  dsimp only
  split
  · rw [PState.print_parser, PState.print_parser]
  · rw [PState.print_parser]

theorem dpres_printConstInt : DPres printConstInt := by
  intro st p2 h
  unfold printConstInt at h
  try dsimp only at h
  obtain ⟨q, hq, hdq⟩ := dpres_printConstUint _ p2 h
  split at hq
  · rw [PState.print_parser] at hq
    obtain ⟨p, hp, hdp⟩ := eatP_dpres st 'n' q hq
    exact ⟨p, hp, by omega⟩
  · obtain ⟨p, hp, hdp⟩ := eatP_dpres st 'n' q hq
    exact ⟨p, hp, by omega⟩

theorem dpres_printConstBool : DPres printConstBool := by
  unfold printConstBool
  refine dpres_withParse _ _ depthPres_hexNibbles ?_
  intro hex st p2 h
  try dsimp only at h
  split at h
  · rw [PState.print_parser] at h
    exact ⟨p2, h, rfl⟩
  · split at h
    · rw [PState.print_parser] at h
      exact ⟨p2, h, rfl⟩
    · exact absurd h (by unfold PState.invalidMark; simp)

theorem dpres_printConstChar : DPres printConstChar := by
  unfold printConstChar
  refine dpres_withParse _ _ depthPres_hexNibbles ?_
  intro hex st p2 h
  try dsimp only at h
  split at h
  · exact absurd h (by unfold PState.invalidMark; simp)
  · split at h
    · rw [PState.print_parser] at h
      exact ⟨p2, h, rfl⟩
    · exact absurd h (by unfold PState.invalidMark; simp)

theorem dpres_unreadByte : DPres (fun s => s.unreadByte) := by
  intro st p2 h
  unfold PState.unreadByte at h
  try dsimp only at h
  split at h
  · rename_i p heq
    simp at h
    exact ⟨p, heq, by rw [← h]⟩
  · exact ⟨p2, h, rfl⟩

set_option maxHeartbeats 2000000 in
theorem printerGo_dpres : ∀ (fuel : Nat) (call : PCall),
    DPres (fun st => (printerGo fuel call st).st) := by
  intro fuel
  induction fuel with
  | zero =>
    intro call st p2 h
    simp only [printerGo, PRes.ofSt] at h
    exact absurd h (fuelOut_not_ok st p2)
  | succ fuel ih =>
    intro call
    cases call with
    | path inValue =>
      intro st p2 h
      simp only [printerGo, PRes.ofSt] at h
      refine dpres_pushScope_pop _ ?_ st p2 h
      refine dpres_withParse _ _ depthPres_nextByte ?_
      intro tag st2 q2 h2
      try dsimp only at h2
      split at h2
      · -- C
        refine dpres_withParse _ _ depthPres_disambiguator
          (fun dis => dpres_withParse _ _ depthPres_ident
            (fun name => dpres_parser_eq (by
              intro s4
              split <;> simp [PState.print_parser]))) st2 q2 h2
      · split at h2
        · -- N
          refine dpres_withParse _ _ depthPres_namespaceTag ?_ st2 q2 h2
          intro ns s q3 h3
          try dsimp only at h3
          obtain ⟨r, hr, hdr⟩ :=
            dpres_withParse Parser.disambiguator _ depthPres_disambiguator
              (fun dis => dpres_withParse _ _ depthPres_ident
                (fun name => dpres_parser_eq (by
                  intro s4
                  cases ns <;> (try dsimp only) <;> (repeat' split) <;>
                    simp [PState.print_parser]))) _ q3 h3
          have hr2 : ((printerGo fuel (.path inValue) s).st).parser = .ok r := by
            split at hr
            · rw [PState.print_parser] at hr
              exact hr
            · exact hr
          obtain ⟨p0, hp0, hdp0⟩ := ih (.path inValue) s r hr2
          exact ⟨p0, hp0, by omega⟩
        · split at h2
          · -- Y
            rw [PState.print_parser] at h2
            obtain ⟨r2, hr2, hdr2⟩ := ih (.path false) _ q2 h2
            rw [PState.print_parser] at hr2
            obtain ⟨r3, hr3, hdr3⟩ := ih .type _ r2 hr2
            rw [PState.print_parser] at hr3
            exact ⟨r3, hr3, by omega⟩
          · split at h2
            · -- M or X
              refine dpres_withParse _ _ depthPres_disambiguator ?_ st2 q2 h2
              intro _ s q3 h3
              try dsimp only at h3
              rw [PState.print_parser] at h3
              have htyOk : ∃ r, ((printerGo fuel .type
                  ((skippingPrinting (fun q => (printerGo fuel (.path false) q).st)
                    s).print "<")).st).parser = .ok r ∧ q3.depth = r.depth := by
                split at h3
                · obtain ⟨r, hr, hdr⟩ := ih (.path false) _ q3 h3
                  rw [PState.print_parser] at hr
                  exact ⟨r, hr, hdr⟩
                · exact ⟨q3, h3, rfl⟩
              obtain ⟨r, hr, hdr⟩ := htyOk
              obtain ⟨r2, hr2, hdr2⟩ := ih .type _ r hr
              rw [PState.print_parser] at hr2
              obtain ⟨r3, hr3, hdr3⟩ :=
                dpres_skipping _ (ih (.path false)) s r2 hr2
              exact ⟨r3, hr3, by omega⟩
            · split at h2
              · -- I
                rw [PState.print_parser] at h2
                obtain ⟨r2, hr2, hdr2⟩ := ih (.sepList .genericArg ", " 0) _ q2 h2
                rw [PState.print_parser] at hr2
                have hr4 : ((printerGo fuel (.path inValue) st2).st).parser = .ok r2 := by
                  split at hr2
                  · rw [PState.print_parser] at hr2
                    exact hr2
                  · exact hr2
                obtain ⟨r5, hr5, hdr5⟩ := ih (.path inValue) st2 r2 hr4
                exact ⟨r5, hr5, by omega⟩
              · split at h2
                · -- B
                  exact dpres_printBackref _ st2 q2 h2
                · -- invalid
                  exact absurd h2 (by unfold PState.invalidMark; simp)
    | type =>
      intro st p2 h
      simp only [printerGo, PRes.ofSt] at h
      refine dpres_withParse _ _ depthPres_nextByte ?_ st p2 h
      intro tag st1 q2 h2
      try dsimp only at h2
      split at h2
      · -- basic type
        rw [PState.print_parser] at h2
        exact ⟨q2, h2, rfl⟩
      · -- non-basic
        refine dpres_pushScope_pop _ ?_ st1 q2 h2
        intro st3 q3 h3
        try dsimp only at h3
        split at h3
        · -- R or Q
          split at h3
          · obtain ⟨r, hr, hdr⟩ :=
              dpres_withParse Parser.integer62 _ depthPres_integer62
                (fun lt => (by
                  intro s2 q4 h4
                  try dsimp only at h4
                  obtain ⟨r0, hr0, hdr0⟩ := ih .type _ q4 h4
                  have hr1 : ((if lt ≠ 0 then (printLifetimeFromIndex s2 lt).print " "
                      else s2)).parser = .ok r0 := by
                    split at hr0
                    · rw [PState.print_parser] at hr0
                      exact hr0
                    · exact hr0
                  split at hr1
                  · rw [PState.print_parser] at hr1
                    obtain ⟨r2, hr2, hdr2⟩ := dpres_printLifetimeFromIndex lt _ r0 hr1
                    exact ⟨r2, hr2, by omega⟩
                  · exact ⟨r0, hr1, by omega⟩ : DPres _)) _ q3 h3
            obtain ⟨r2, hr2, hdr2⟩ := eatP_dpres _ 'L' _ hr
            rw [PState.print_parser] at hr2
            exact ⟨r2, hr2, by omega⟩
          · obtain ⟨r0, hr0, hdr0⟩ := ih .type _ q3 h3
            have hr1 : (((st3.print "&").eatP 'L').2).parser = .ok r0 := by
              split at hr0
              · rw [PState.print_parser] at hr0
                exact hr0
              · exact hr0
            obtain ⟨r2, hr2, hdr2⟩ := eatP_dpres _ 'L' _ hr1
            rw [PState.print_parser] at hr2
            exact ⟨r2, hr2, by omega⟩
        · split at h3
          · -- P or O
            obtain ⟨r0, hr0, hdr0⟩ := ih .type _ q3 h3
            have hr1 : (st3.print "*").parser = .ok r0 := by
              split at hr0
              · rw [PState.print_parser] at hr0
                exact hr0
              · rw [PState.print_parser] at hr0
                exact hr0
            rw [PState.print_parser] at hr1
            exact ⟨r0, hr1, hdr0⟩
          · split at h3
            · -- A or S
              rw [PState.print_parser] at h3
              have hstep : ∃ r, ((printerGo fuel .type (st3.print "[")).st).parser = .ok r ∧
                  q3.depth = r.depth := by
                split at h3
                · obtain ⟨r, hr, hdr⟩ := ih .const _ q3 h3
                  rw [PState.print_parser] at hr
                  exact ⟨r, hr, hdr⟩
                · exact ⟨q3, h3, rfl⟩
              obtain ⟨r, hr, hdr⟩ := hstep
              obtain ⟨r2, hr2, hdr2⟩ := ih .type _ r hr
              rw [PState.print_parser] at hr2
              exact ⟨r2, hr2, by omega⟩
            · split at h3
              · -- T
                rw [PState.print_parser] at h3
                have hr1 : ((printerGo fuel (.sepList .type ", " 0)
                    (st3.print "(")).st).parser = .ok q3 := by
                  split at h3
                  · rw [PState.print_parser] at h3
                    exact h3
                  · exact h3
                obtain ⟨r, hr, hdr⟩ := ih (.sepList .type ", " 0) _ q3 hr1
                rw [PState.print_parser] at hr
                exact ⟨r, hr, hdr⟩
              · split at h3
                · -- F
                  refine dpres_inBinder _ ?_ st3 q3 h3
                  intro s q4 h4
                  try dsimp only at h4
                  split at h4
                  · split at h4
                    · obtain ⟨r, hr, hdr⟩ := ih (.fnSigRest _ _) _ q4 h4
                      obtain ⟨r2, hr2, hdr2⟩ := eatP_dpres _ 'C' _ hr
                      obtain ⟨r3, hr3, hdr3⟩ := eatP_dpres _ 'K' _ hr2
                      obtain ⟨r4, hr4, hdr4⟩ := eatP_dpres _ 'U' _ hr3
                      exact ⟨r4, hr4, by omega⟩
                    · obtain ⟨r, hr, hdr⟩ :=
                        dpres_withParse Parser.ident _ depthPres_ident
                          (fun abi => (by
                            intro s2 q5 h5
                            dsimp only at h5
                            split at h5
                            · exact absurd h5 (by unfold PState.invalidMark; simp)
                            · exact ih (.fnSigRest _ _) _ q5 h5 : DPres _)) _ q4 h4
                      obtain ⟨r3, hr3, hdr3⟩ := eatP_dpres _ 'K' _ hr
                      obtain ⟨r4, hr4, hdr4⟩ := eatP_dpres _ 'U' _ hr3
                      exact ⟨r4, hr4, by omega⟩
                  · obtain ⟨r, hr, hdr⟩ := ih (.fnSigRest _ _) _ q4 h4
                    obtain ⟨r3, hr3, hdr3⟩ := eatP_dpres _ 'K' _ hr
                    obtain ⟨r4, hr4, hdr4⟩ := eatP_dpres _ 'U' _ hr3
                    exact ⟨r4, hr4, by omega⟩
                · split at h3
                  · -- D
                    split at h3
                    · exact absurd h3 (by unfold PState.invalidMark; simp)
                    · obtain ⟨r, hr, hdr⟩ :=
                        dpres_withParse Parser.integer62 _ depthPres_integer62
                          (fun lt => (by
                            intro s2 q4 h4
                            try dsimp only at h4
                            split at h4
                            · obtain ⟨r0, hr0, hdr0⟩ :=
                                dpres_printLifetimeFromIndex lt _ q4 h4
                              rw [PState.print_parser] at hr0
                              exact ⟨r0, hr0, hdr0⟩
                            · exact ⟨q4, h4, rfl⟩ : DPres _)) _ q3 h3
                      obtain ⟨r2, hr2, hdr2⟩ := eatP_dpres _ 'L' _ hr
                      obtain ⟨r3, hr3, hdr3⟩ :=
                        dpres_inBinder _ (fun s2 q5 h5 =>
                          ih (.sepList .dynTrait " + " 0) s2 q5 h5) _ r2 hr2
                      rw [PState.print_parser] at hr3
                      exact ⟨r3, hr3, by omega⟩
                  · split at h3
                    · -- B
                      exact dpres_printBackref _ st3 q3 h3
                    · -- fallback to path
                      obtain ⟨r, hr, hdr⟩ := ih (.path false) _ q3 h3
                      obtain ⟨r2, hr2, hdr2⟩ := dpres_unreadByte st3 r hr
                      exact ⟨r2, hr2, by omega⟩
    | const =>
      intro st p2 h
      simp only [printerGo, PRes.ofSt] at h
      refine dpres_pushScope_pop _ ?_ st p2 h
      intro st1 q2 h2
      try dsimp only at h2
      split at h2
      · obtain ⟨r, hr, hdr⟩ := dpres_printBackref _ _ q2 h2
        obtain ⟨r2, hr2, hd2⟩ := eatP_dpres _ 'B' _ hr
        exact ⟨r2, hr2, by omega⟩
      · obtain ⟨r, hr, hdr⟩ :=
          dpres_withParse Parser.nextByte _ depthPres_nextByte
            (fun tyTag => (by
              intro s2 q3 h3
              try dsimp only at h3
              split at h3
              · rw [PState.print_parser] at h3
                exact ⟨q3, h3, rfl⟩
              · split at h3
                · have hAnn : ∀ (g : PState → PState), DPres g → ∀ q4,
                      ((if ((g s2).sink && !(g s2).alternate) = true then
                        ((g s2).print ": ").print ((basicType tyTag).getD "")
                      else g s2)).parser = .ok q4 →
                      ∃ p, s2.parser = .ok p ∧ q4.depth = p.depth := by
                    intro g hg q hq
                    split at hq
                    · rw [PState.print_parser, PState.print_parser] at hq
                      exact hg _ _ hq
                    · exact hg _ _ hq
                  exact hAnn
                    (fun s => if isUintTag tyTag then printConstUint s
                      else if isIntTag tyTag then printConstInt s
                      else if tyTag = 'b' then printConstBool s
                      else printConstChar s)
                    (by
                      intro s q hq
                      split at hq
                      · exact dpres_printConstUint _ _ hq
                      · split at hq
                        · exact dpres_printConstInt _ _ hq
                        · split at hq
                          · exact dpres_printConstBool _ _ hq
                          · exact dpres_printConstChar _ _ hq) q3 h3
                · exact absurd h3 (by unfold PState.invalidMark; simp) : DPres _))
            _ q2 h2
        obtain ⟨r2, hr2, hd2⟩ := eatP_dpres _ 'B' _ hr
        exact ⟨r2, hr2, by omega⟩
    | genericArg =>
      intro st p2 h
      simp only [printerGo, PRes.ofSt] at h
      try dsimp only at h
      split at h
      · obtain ⟨r, hr, hdr⟩ :=
          dpres_withParse Parser.integer62 _ depthPres_integer62
            (fun lt => dpres_printLifetimeFromIndex lt) _ p2 h
        obtain ⟨r2, hr2, hd2⟩ := eatP_dpres _ 'L' _ hr
        exact ⟨r2, hr2, by omega⟩
      · split at h
        · obtain ⟨r, hr, hdr⟩ := ih .const _ p2 h
          obtain ⟨r2, hr2, hd2⟩ := eatP_dpres _ 'K' _ hr
          obtain ⟨r3, hr3, hd3⟩ := eatP_dpres _ 'L' _ hr2
          exact ⟨r3, hr3, by omega⟩
        · obtain ⟨r, hr, hdr⟩ := ih .type _ p2 h
          obtain ⟨r2, hr2, hd2⟩ := eatP_dpres _ 'K' _ hr
          obtain ⟨r3, hr3, hd3⟩ := eatP_dpres _ 'L' _ hr2
          exact ⟨r3, hr3, by omega⟩
    | fnSigRest isUnsafe abi =>
      intro st p2 h
      simp only [printerGo, PRes.ofSt] at h
      try dsimp only at h
      generalize hs1 : (match abi with
        | some a =>
          (((if isUnsafe then st.print "unsafe " else st).print
            "extern \"").print a).print "\" "
        | none => if isUnsafe then st.print "unsafe " else st) = s1 at h
      have key : ∀ r1 : Parser, s1.parser = .ok r1 →
          ∃ p, st.parser = .ok p ∧ r1.depth = p.depth := by
        intro r1 hr1
        rw [← hs1] at hr1
        rcases abi with _ | a
        · try dsimp only at hr1
          split at hr1
          · rw [PState.print_parser] at hr1
            exact ⟨r1, hr1, rfl⟩
          · exact ⟨r1, hr1, rfl⟩
        · try dsimp only at hr1
          rw [PState.print_parser, PState.print_parser, PState.print_parser] at hr1
          split at hr1
          · rw [PState.print_parser] at hr1
            exact ⟨r1, hr1, rfl⟩
          · exact ⟨r1, hr1, rfl⟩
      split at h
      · try dsimp only at h
        obtain ⟨r1, hr1, hd1⟩ := eatP_dpres _ 'u' _ h
        rw [PState.print_parser] at hr1
        obtain ⟨r2, hr2, hd2⟩ := ih (.sepList .type ", " 0) _ r1 hr1
        rw [PState.print_parser] at hr2
        obtain ⟨r3, hr3, hd3⟩ := key r2 hr2
        exact ⟨r3, hr3, by omega⟩
      · try dsimp only at h
        obtain ⟨r0, hr0, hd0⟩ := ih .type _ p2 h
        rw [PState.print_parser] at hr0
        obtain ⟨r1, hr1, hd1⟩ := eatP_dpres _ 'u' _ hr0
        rw [PState.print_parser] at hr1
        obtain ⟨r2, hr2, hd2⟩ := ih (.sepList .type ", " 0) _ r1 hr1
        rw [PState.print_parser] at hr2
        obtain ⟨r3, hr3, hd3⟩ := key r2 hr2
        exact ⟨r3, hr3, by omega⟩
    | dynTrait =>
      intro st p2 h
      simp only [printerGo, PRes.ofSt] at h
      obtain ⟨r, hr, hdr⟩ := ih (.dynTraitRest _) _ p2 h
      obtain ⟨r2, hr2, hd2⟩ := ih .maybeOpenGenerics _ r hr
      exact ⟨r2, hr2, by omega⟩
    | dynTraitRest opened =>
      intro st p2 h
      simp only [printerGo, PRes.ofSt] at h
      try dsimp only at h
      split at h
      · obtain ⟨r, hr, hdr⟩ :=
          dpres_withParse Parser.ident _ depthPres_ident
            (fun name => (by
              intro s2 q3 h3
              try dsimp only at h3
              obtain ⟨r0, hr0, hd0⟩ := ih (.dynTraitRest true) _ q3 h3
              obtain ⟨r1, hr1, hd1⟩ := ih .type _ r0 hr0
              rw [PState.print_parser, PState.print_parser] at hr1
              exact ⟨r1, hr1, by omega⟩ : DPres _)) _ p2 h
        split at hr
        · rw [PState.print_parser] at hr
          obtain ⟨r2, hr2, hd2⟩ := eatP_dpres _ 'p' _ hr
          exact ⟨r2, hr2, by omega⟩
        · rw [PState.print_parser] at hr
          obtain ⟨r2, hr2, hd2⟩ := eatP_dpres _ 'p' _ hr
          exact ⟨r2, hr2, by omega⟩
      · split at h
        · rw [PState.print_parser] at h
          obtain ⟨r2, hr2, hd2⟩ := eatP_dpres _ 'p' _ h
          exact ⟨r2, hr2, by omega⟩
        · obtain ⟨r2, hr2, hd2⟩ := eatP_dpres _ 'p' _ h
          exact ⟨r2, hr2, by omega⟩
    | maybeOpenGenerics =>
      intro st p2 h
      simp only [printerGo, PRes.ofSt] at h
      split at h
      · try dsimp only at h
        obtain ⟨r, hr, hdr⟩ := dpres_printBackrefOpen _ _ p2 h
        obtain ⟨r2, hr2, hd2⟩ := eatP_dpres _ 'B' _ hr
        exact ⟨r2, hr2, by omega⟩
      · split at h
        · try dsimp only at h
          obtain ⟨r, hr, hdr⟩ := ih (.sepList .genericArg ", " 0) _ p2 h
          rw [PState.print_parser] at hr
          obtain ⟨r2, hr2, hd2⟩ := ih (.path false) _ r hr
          obtain ⟨r3, hr3, hd3⟩ := eatP_dpres _ 'I' _ hr2
          obtain ⟨r4, hr4, hd4⟩ := eatP_dpres _ 'B' _ hr3
          exact ⟨r4, hr4, by omega⟩
        · try dsimp only at h
          obtain ⟨r, hr, hdr⟩ := ih (.path false) _ p2 h
          obtain ⟨r2, hr2, hd2⟩ := eatP_dpres _ 'I' _ hr
          obtain ⟨r3, hr3, hd3⟩ := eatP_dpres _ 'B' _ hr2
          exact ⟨r3, hr3, by omega⟩
    | sepList elem sep i =>
      intro st p2 h
      simp only [printerGo, PRes.ofSt] at h
      split at h
      · try dsimp only at h
        exact ⟨p2, h, rfl⟩
      · try dsimp only at h
        split at h
        · try dsimp only at h
          obtain ⟨r, hr, hd⟩ := eatP_dpres _ 'E' _ h
          exact ⟨r, hr, by omega⟩
        · obtain ⟨r, hr, hd⟩ := ih (.sepList elem sep (i + 1)) _ p2 h
          obtain ⟨r1, hr1, hd1⟩ := ih elem _ r hr
          split at hr1
          · rw [PState.print_parser] at hr1
            obtain ⟨r3, hr3, hd3⟩ := eatP_dpres _ 'E' _ hr1
            exact ⟨r3, hr3, by omega⟩
          · obtain ⟨r3, hr3, hd3⟩ := eatP_dpres _ 'E' _ hr1
            exact ⟨r3, hr3, by omega⟩

/-- Symbol body used to witness the depth-balance statement. -/
def cSixSym : List Char := "NvC6_123foo3bar".toList

/-- Concrete printer state at entry. -/
def cSixSt : PState := initPState cSixSym false true

/-- The parser returned by the successful print_path run on cSixSt. -/
def cSixP2 : Parser :=
  match (printPath 300 false cSixSt).parser with
  | .ok p => p
  | .error _ => { sym := [], next := 0, depth := 0 }

/-- C6 (amended): push_depth and pop_depth calls are not equinumerous on every
control-flow path (see the counterexample), but recursion depth is never
leaked: whenever print_path, print_type, print_const, or any other printer
production returns with its parser in a non-error state, the parser depth
equals the depth it had at entry. -/
theorem c6_theorem (fuel : Nat) (inValue : Bool) (st : PState) (p2 : Parser) :
    ((printPath fuel inValue st).parser = .ok p2 →
      ∃ p, st.parser = .ok p ∧ p2.depth = p.depth) ∧
    ((printType fuel st).parser = .ok p2 →
      ∃ p, st.parser = .ok p ∧ p2.depth = p.depth) ∧
    ((printConst fuel st).parser = .ok p2 →
      ∃ p, st.parser = .ok p ∧ p2.depth = p.depth) ∧
    (∀ call : PCall, (printerGo fuel call st).st.parser = .ok p2 →
      ∃ p, st.parser = .ok p ∧ p2.depth = p.depth) :=
  ⟨fun h => printerGo_dpres fuel (.path inValue) st p2 h,
   fun h => printerGo_dpres fuel .type st p2 h,
   fun h => printerGo_dpres fuel .const st p2 h,
   fun call h => printerGo_dpres fuel call st p2 h⟩

/-- Witness: the depth-balance theorem applied to a concrete successful run. -/
theorem c6_witness :
    ∃ p, cSixSt.parser = .ok p ∧ cSixP2.depth = p.depth :=
  (c6_theorem 300 false cSixSt cSixP2).1 (by rfl)

/-- elemsOf always yields exactly n elements. -/
theorem elemsOf_length : ∀ (n : Nat) (inner : List Char),
    (elemsOf n inner).length = n := by
  intro n
  induction n with
  | zero => intro inner; simp [elemsOf]
  | succ r ih => intro inner; simp [elemsOf, ih]

/-- The two hash-shape definitions coincide: the source's is_rust_hash test
accepts an h followed by zero or more hex digits. -/
theorem amendedHash_eq : amendedHash = isRustHash := by
  funext e
  cases e with
  | nil => rfl
  | cons c rest => rfl

/-- The hash test on the last element ignores a fresh head element. -/
theorem amendedHashLast_cons (e f : List Char) (fs : List (List Char)) :
    amendedHashLast (e :: f :: fs) = amendedHashLast (f :: fs) := by
  unfold amendedHashLast
  rw [List.getLast?_cons_cons]

/-- One step of elemsOf. -/
theorem elemsOf_succ (n : Nat) (inner : List Char) :
    elemsOf (n+1) inner
      = (inner.dropWhile isDigit10).take (val10 (inner.takeWhile isDigit10))
        :: elemsOf n ((inner.dropWhile isDigit10).drop (val10 (inner.takeWhile isDigit10))) := by
  simp [elemsOf]

/-- One step of renderTail. -/
theorem renderTail_cons (lead : Bool) (e : List Char) (es : List (List Char)) :
    renderTail lead (e :: es)
      = (if lead then "::".toList else []) ++ escapeElem (stripUnd e)
        ++ renderTail true es := by
  simp [renderTail]

/-- Normal-mode characterization of the legacy format loop: every element is
escaped and joined, nothing is dropped. -/
theorem legacyFmtLoop_false : ∀ (n idx : Nat) (inner acc : List Char),
    legacyFmtLoop n idx inner false acc
      = acc ++ renderTail (decide (idx ≠ 0)) (elemsOf n inner) := by
  intro n
  induction n with
  | zero => intro idx inner acc; simp [legacyFmtLoop, elemsOf, renderTail]
  | succ r ih =>
    intro idx inner acc
    unfold legacyFmtLoop
    dsimp only
    rw [if_neg (by simp)]
    rw [ih]
    rw [elemsOf_succ, renderTail_cons]
    by_cases hidx : idx = 0
    · subst hidx
      simp [stripUnd, List.append_assoc]
    · simp [hidx, stripUnd, List.append_assoc]

/-- Alternate-mode characterization of the legacy format loop: the last
element is dropped exactly when it has the hash shape. -/
theorem legacyFmtLoop_true : ∀ (n idx : Nat) (inner acc : List Char),
    legacyFmtLoop n idx inner true acc
      = acc ++ renderTail (decide (idx ≠ 0))
          (if amendedHashLast (elemsOf n inner) then (elemsOf n inner).dropLast
           else elemsOf n inner) := by
  intro n
  induction n with
  | zero =>
    intro idx inner acc
    simp [legacyFmtLoop, elemsOf, amendedHashLast, renderTail]
  | succ r ih =>
    intro idx inner acc
    unfold legacyFmtLoop
    dsimp only
    rcases Nat.eq_zero_or_pos r with hr | hr
    · subst hr
      by_cases hh : isRustHash
          ((inner.dropWhile isDigit10).take (val10 (inner.takeWhile isDigit10)))
      · rw [if_pos ⟨rfl, rfl, hh⟩]
        have h1 : elemsOf 1 inner
            = [(inner.dropWhile isDigit10).take (val10 (inner.takeWhile isDigit10))] := by
          simp [elemsOf]
        rw [h1]
        simp [amendedHashLast, amendedHash_eq, hh, renderTail]
      · rw [if_neg (by
          intro hcon
          exact hh hcon.2.2)]
        have h1 : elemsOf 1 inner
            = [(inner.dropWhile isDigit10).take (val10 (inner.takeWhile isDigit10))] := by
          simp [elemsOf]
        rw [h1]
        simp only [legacyFmtLoop]
        rw [show amendedHashLast
            [(inner.dropWhile isDigit10).take (val10 (inner.takeWhile isDigit10))]
            = false from by simp [amendedHashLast, amendedHash_eq, hh]]
        by_cases hidx : idx = 0
        · subst hidx
          simp [renderTail, stripUnd, List.append_assoc, List.drop_one]
        · simp [hidx, renderTail, stripUnd, List.append_assoc, List.drop_one]
    · rw [if_neg (by
        intro hcon
        exact absurd hcon.2.1 (by omega))]
      rw [ih]
      rcases hes : elemsOf r
          ((inner.dropWhile isDigit10).drop (val10 (inner.takeWhile isDigit10)))
        with _ | ⟨e1, es1⟩
      · have hlen := elemsOf_length r
          ((inner.dropWhile isDigit10).drop (val10 (inner.takeWhile isDigit10)))
        rw [hes] at hlen
        simp at hlen
        omega
      · have h1 : elemsOf (r+1) inner
            = (inner.dropWhile isDigit10).take (val10 (inner.takeWhile isDigit10))
              :: e1 :: es1 := by
          rw [elemsOf_succ, hes]
        rw [h1]
        rw [amendedHashLast_cons]
        by_cases hhash : amendedHashLast (e1 :: es1)
        · rw [if_pos hhash, if_pos hhash, List.dropLast_cons₂]
          by_cases hidx : idx = 0
          · subst hidx
            simp [renderTail_cons, stripUnd, List.append_assoc, List.drop_one]
          · simp [hidx, renderTail_cons, stripUnd, List.append_assoc, List.drop_one]
        · rw [if_neg hhash, if_neg hhash]
          by_cases hidx : idx = 0
          · subst hidx
            simp [renderTail_cons, stripUnd, List.append_assoc, List.drop_one]
          · simp [hidx, renderTail_cons, stripUnd, List.append_assoc, List.drop_one]

/-- C3 (amended): for every legacy symbol accepted by the legacy decoder,
normal display renders every element, and alternate display drops the last
element exactly when it has the hash shape tested by is_rust_hash, namely
an h followed by zero or more ASCII hex digits; in particular an element
that is exactly h is classified as a hash and dropped, refuting the
one-or-more reading (see the counterexample). -/
theorem c3_theorem (s : String) (inner : List Char) (n : Nat)
    (h : legacyParse s.toList = some (inner, n)) :
    legacyDisplay s false = some (String.mk (renderTail false (elemsOf n inner))) ∧
    legacyDisplay s true = some (String.mk (renderTail false
      (if amendedHashLast (elemsOf n inner) then (elemsOf n inner).dropLast
       else elemsOf n inner))) ∧
    amendedHash = isRustHash := by
  refine ⟨?_, ?_, amendedHash_eq⟩
  · unfold legacyDisplay
    rw [h]
    show some (legacyFmt inner n false) = _
    unfold legacyFmt
    rw [legacyFmtLoop_false]
    simp
  · unfold legacyDisplay
    rw [h]
    show some (legacyFmt inner n true) = _
    unfold legacyFmt
    rw [legacyFmtLoop_true]
    simp

/-- Witness: the hash-drop characterization applied to _ZN3foo1hE, whose
last element is exactly h. -/
theorem c3_witness :
    legacyDisplay "_ZN3foo1hE" false
        = some (String.mk (renderTail false (elemsOf 2 "3foo1h".toList))) ∧
    legacyDisplay "_ZN3foo1hE" true
        = some (String.mk (renderTail false
            (if amendedHashLast (elemsOf 2 "3foo1h".toList)
             then (elemsOf 2 "3foo1h".toList).dropLast
             else elemsOf 2 "3foo1h".toList))) ∧
    amendedHash = isRustHash :=
  c3_theorem "_ZN3foo1hE" "3foo1h".toList 2 (by rfl)

/-- val10 is accumulation from zero. -/
theorem val10_eq (ds : List Char) : val10 ds = val10From 0 ds := rfl

/-- A list of positive length is not empty. -/
theorem isEmpty_false_of_length_pos {α : Type} (l : List α) (h : 0 < l.length) :
    l.isEmpty = false := by
  cases l with
  | nil => simp at h
  | cons a t => rfl

/-- Core of the C9 equivalence: on inputs shorter than 2^64, the legacy
element loop succeeds exactly when the spec-side interior predicate holds;
a decimal length that overflows the checked accumulation necessarily
exceeds the remaining input length, so both sides reject. -/
theorem elemLoopF_isSome : ∀ (fuel : Nat) (cs : List Char), cs.length < U64LIMIT →
    (elemLoopF fuel cs).isSome = specInteriorOkF fuel cs := by
  intro fuel
  induction fuel with
  | zero => intro cs h; simp [elemLoopF, specInteriorOkF]
  | succ f ih =>
    intro cs hlen
    unfold elemLoopF specInteriorOkF
    dsimp only
    rw [accDigitsFrom_spec _ 0 (by unfold U64LIMIT; omega)]
    rw [val10_eq]
    have h0 : (0:Nat) < U64LIMIT := by unfold U64LIMIT; omega
    by_cases hcs : cs = []
    · subst hcs
      simp [val10From, h0]
    · rw [if_neg hcs]
      by_cases hds : cs.takeWhile isDigit10 = []
      · rw [if_pos hds, hds]
        have hrest : cs.dropWhile isDigit10 = cs := by
          cases cs with
          | nil => rfl
          | cons c cs2 =>
            rw [List.takeWhile_cons] at hds
            rw [List.dropWhile_cons]
            split at hds
            · simp at hds
            · rw [if_neg (by assumption)]
        simp [val10From, hrest, hcs, h0]
      · rw [if_neg hds]
        by_cases hov : val10From 0 (cs.takeWhile isDigit10) < U64LIMIT
        · rw [if_pos hov]
          dsimp only
          by_cases hi : val10From 0 (cs.takeWhile isDigit10) = 0
          · rw [if_pos hi, if_pos hi]
            by_cases hr : cs.dropWhile isDigit10 = []
            · simp [hr]
            · simp [hr]
          · rw [if_neg hi, if_neg hi]
            by_cases hlt : (cs.dropWhile isDigit10).length
                < val10From 0 (cs.takeWhile isDigit10)
            · rw [if_pos hlt, if_pos hlt]
              rfl
            · rw [if_neg hlt, if_neg hlt]
              rw [show ∀ o : Option Nat, (o.map (· + 1)).isSome = o.isSome from
                fun o => by cases o <;> rfl]
              refine ih _ ?_
              have h1 : (cs.dropWhile isDigit10).length ≤ cs.length :=
                (List.dropWhile_sublist isDigit10).length_le
              have h2 : ((cs.dropWhile isDigit10).drop
                    (val10From 0 (cs.takeWhile isDigit10))).length
                  ≤ (cs.dropWhile isDigit10).length := by
                rw [List.length_drop]
                omega
              omega
        · rw [if_neg hov]
          dsimp only
          have hge : U64LIMIT ≤ val10From 0 (cs.takeWhile isDigit10) :=
            Nat.le_of_not_lt hov
          have h1 : (cs.dropWhile isDigit10).length ≤ cs.length :=
            (List.dropWhile_sublist isDigit10).length_le
          rw [if_neg (by
            intro hz
            rw [hz] at hge
            unfold U64LIMIT at hge
            omega)]
          rw [if_pos (by omega)]
          rfl

/-- Shared interior step of the C9 equivalence: ASCII check plus element
loop versus ASCII check plus spec predicate. -/
theorem c9_body (inner : List Char) (hl : inner.length < U64LIMIT) :
    (if !inner.all (fun c => c.toNat < 128) then (none : Option (List Char × Nat))
     else (elemLoop inner).map (fun n => (inner, n))).isSome
    = (inner.all (fun c => c.toNat < 128) && specInteriorOk inner) := by
  by_cases ha : inner.all (fun c => c.toNat < 128)
  · rw [ha]
    show ((elemLoop inner).map (fun n => (inner, n))).isSome = (true && specInteriorOk inner)
    rw [show ((elemLoop inner).map (fun n => (inner, n))).isSome
        = (elemLoop inner).isSome from by cases elemLoop inner <;> rfl]
    unfold elemLoop specInteriorOk
    rw [elemLoopF_isSome _ _ hl]
    simp
  · have ha2 : inner.all (fun c => c.toNat < 128) = false := by
      cases hv : inner.all (fun c => c.toNat < 128)
      · rfl
      · exact absurd hv ha
    rw [ha2]
    simp

/-- A list with at most one entry loses everything to dropLast. -/
theorem dropLast_nil_of_short {α : Type} (t : List α) (h : t.length ≤ 1) :
    t.dropLast = [] := by
  cases t with
  | nil => rfl
  | cons a t2 =>
    cases t2 with
    | nil => rfl
    | cons b t3 => simp at h

/-- C9 (amended): on inputs shorter than 2^64 bytes, the legacy recognizer
accepts exactly the strings with a _ZN, ZN or __ZN prefix, a final E, a
NON-EMPTY all-ASCII interior between them, and an interior that is exactly
a sequence of decimal-length-prefixed elements with nothing left over; the
original claim omitted the non-emptiness requirement (see the
counterexample _ZNE). -/
theorem c9_theorem (s : List Char) (hlen : s.length < U64LIMIT) :
    (legacyParse s).isSome = specLegacyAcceptsAmended s := by
  unfold legacyParse specLegacyAcceptsAmended
  dsimp only
  by_cases h1 : ('_' :: 'Z' :: 'N' :: []).isPrefixOf s ∧ s.getLast? = some 'E'
  · rw [if_pos h1]
    obtain ⟨t, ht⟩ := List.isPrefixOf_iff_prefix.mp h1.1
    subst ht
    have hlen4 : (('_' :: 'Z' :: 'N' :: []) ++ t).length = 3 + t.length := by simp; omega
    have hdrop : (('_' :: 'Z' :: 'N' :: []) ++ t).drop 3 = t := List.drop_left' rfl
    have hdl : t.dropLast.length = t.length - 1 := List.length_dropLast t
    by_cases hc : 4 < (('_' :: 'Z' :: 'N' :: []) ++ t).length
    · rw [if_pos ⟨hc, h1.1, h1.2⟩]
      dsimp only
      rw [hdrop]
      rw [c9_body t.dropLast (by omega)]
      rw [isEmpty_false_of_length_pos t.dropLast (by omega)]
      simp
    · rw [if_neg (fun hcon => hc hcon.1)]
      rw [if_neg (by
        intro hcon
        have hp : ('Z' :: 'N' :: []).isPrefixOf (('_' :: 'Z' :: 'N' :: []) ++ t)
            = false := rfl
        rw [hcon.2.1] at hp
        exact Bool.noConfusion hp)]
      rw [if_neg (by
        intro hcon
        have hp : ('_' :: '_' :: 'Z' :: 'N' :: []).isPrefixOf
            (('_' :: 'Z' :: 'N' :: []) ++ t) = false := rfl
        rw [hcon.2.1] at hp
        exact Bool.noConfusion hp)]
      dsimp only
      rw [hdrop]
      rw [dropLast_nil_of_short t (by omega)]
      simp
  · rw [if_neg h1]
    rw [if_neg (fun hcon => h1 ⟨hcon.2.1, hcon.2.2⟩)]
    by_cases h2 : ('Z' :: 'N' :: []).isPrefixOf s ∧ s.getLast? = some 'E'
    · rw [if_pos h2]
      obtain ⟨t, ht⟩ := List.isPrefixOf_iff_prefix.mp h2.1
      subst ht
      have hlen4 : (('Z' :: 'N' :: []) ++ t).length = 2 + t.length := by simp; omega
      have hdrop : (('Z' :: 'N' :: []) ++ t).drop 2 = t := List.drop_left' rfl
      have hdl : t.dropLast.length = t.length - 1 := List.length_dropLast t
      by_cases hc : 3 < (('Z' :: 'N' :: []) ++ t).length
      · rw [if_pos ⟨hc, h2.1, h2.2⟩]
        dsimp only
        rw [hdrop]
        rw [c9_body t.dropLast (by omega)]
        rw [isEmpty_false_of_length_pos t.dropLast (by omega)]
        simp
      · rw [if_neg (fun hcon => hc hcon.1)]
        rw [if_neg (by
          intro hcon
          have hp : ('_' :: '_' :: 'Z' :: 'N' :: []).isPrefixOf
              (('Z' :: 'N' :: []) ++ t) = false := rfl
          rw [hcon.2.1] at hp
          exact Bool.noConfusion hp)]
        dsimp only
        rw [hdrop]
        rw [dropLast_nil_of_short t (by omega)]
        simp
    · rw [if_neg h2]
      rw [if_neg (fun hcon => h2 ⟨hcon.2.1, hcon.2.2⟩)]
      by_cases h3 : ('_' :: '_' :: 'Z' :: 'N' :: []).isPrefixOf s ∧ s.getLast? = some 'E'
      · rw [if_pos h3]
        obtain ⟨t, ht⟩ := List.isPrefixOf_iff_prefix.mp h3.1
        subst ht
        have hlen4 : (('_' :: '_' :: 'Z' :: 'N' :: []) ++ t).length = 4 + t.length := by
          simp
          omega
        have hdrop : (('_' :: '_' :: 'Z' :: 'N' :: []) ++ t).drop 4 = t :=
          List.drop_left' rfl
        have hdl : t.dropLast.length = t.length - 1 := List.length_dropLast t
        by_cases hc : 5 < (('_' :: '_' :: 'Z' :: 'N' :: []) ++ t).length
        · rw [if_pos ⟨hc, h3.1, h3.2⟩]
          dsimp only
          rw [hdrop]
          rw [c9_body t.dropLast (by omega)]
          rw [isEmpty_false_of_length_pos t.dropLast (by omega)]
          simp
        · rw [if_neg (fun hcon => hc hcon.1)]
          dsimp only
          rw [hdrop]
          rw [dropLast_nil_of_short t (by omega)]
          simp
      · rw [if_neg h3]
        rw [if_neg (fun hcon => h3 ⟨hcon.2.1, hcon.2.2⟩)]
        rfl

/-- Witness: the C9 equivalence applied to the accepted symbol _ZN3fooE. -/
theorem c9_witness :
    "_ZN3fooE".toList.length < U64LIMIT ∧
      (legacyParse "_ZN3fooE".toList).isSome
        = specLegacyAcceptsAmended "_ZN3fooE".toList :=
  ⟨by decide, c9_theorem "_ZN3fooE".toList (by decide)⟩
